import Mathlib

/-!
Verification of the core semantics of a binary-data-description language
(the `ddl` crate): evaluation of core terms to weak-head-normal values,
read-back of values to terms, definitional equality, and the denotation of
the Rust readers emitted for struct items.

The shallow embedding below follows `crates/ddl/src/core/semantics.rs` and
`crates/ddl/src/rust/emit.rs`.  The data type declarations of the `core`
module itself are not among the provided sources, so they are modelled from
the specification document; every such definition is marked with a doc
comment starting with `Modelled from the spec:`.
-/

namespace Fathom

/-- Modelled from the spec: a source range is an opaque value identifying a
byte region of a source file (here: start and end offsets).  Ranges never
affect equality of values. -/
abbrev Range := Nat × Nat

/-- Modelled from the spec: universes are a tower `Type l` indexed by a
non-negative level, plus the single distinguished `Format` universe. -/
inductive Univ where
  | type (level : Nat)
  | format
  deriving DecidableEq

/-- Modelled from the spec: constants are arbitrary-precision integers and
bits-preserving IEEE-754 floats.  The floats are represented by their bit
patterns, so that derived equality compares bit patterns (hence
`-0.0 != 0.0` and NaN is equal to itself). -/
inductive Constant where
  | int (value : Int)
  | f32 (bits : Nat)
  | f64 (bits : Nat)
  deriving DecidableEq

/-- Modelled from the spec: core terms.  The constructors and their fields
are exactly the ones matched on by `eval` in `core/semantics.rs`; `Ann`,
`FunctionType` and `FunctionElim` store no range of their own.  `IntElim`
branches are a key-ordered map from integers to terms, modelled as an
association list. -/
inductive Term where
  | global (range : Range) (name : String)
  | item (range : Range) (name : String)
  | ann (term : Term) (type : Term)
  | univ (range : Range) (u : Univ)
  | functionType (paramType : Term) (bodyType : Term)
  | functionElim (head : Term) (argument : Term)
  | constant (range : Range) (c : Constant)
  | boolElim (range : Range) (head : Term) (ifTrue : Term) (ifFalse : Term)
  | intElim (range : Range) (head : Term) (branches : List (Int × Term)) (dflt : Term)
  | error (range : Range)

/-- Modelled from the spec: every core node carries a range; the
constructors that store none span from the first subterm to the last. -/
def Term.range : Term → Range
  | .global r _ => r
  | .item r _ => r
  | .ann t ty => ((Term.range t).1, (Term.range ty).2)
  | .univ r _ => r
  | .functionType p b => ((Term.range p).1, (Term.range b).2)
  | .functionElim h a => ((Term.range h).1, (Term.range a).2)
  | .constant r _ => r
  | .boolElim r _ _ _ => r
  | .intElim r _ _ _ => r
  | .error r => r

/-- Modelled from the spec: heads of neutral values. -/
inductive Head where
  | global (range : Range) (name : String)
  | item (range : Range) (name : String)
  | error (range : Range)

mutual
/-- Modelled from the spec: core values, the results of evaluation. -/
inductive Value where
  | neutral (head : Head) (elims : List Elim)
  | univ (range : Range) (u : Univ)
  | functionType (paramType : Value) (bodyType : Value)
  | constant (range : Range) (c : Constant)
  | error (range : Range)

/-- Modelled from the spec: eliminators attached to a neutral value, in
application order.  A function eliminator stores an argument value; the
boolean and integer eliminators store their branch terms unevaluated. -/
inductive Elim where
  | function (range : Range) (argument : Value)
  | bool (range : Range) (ifTrue : Term) (ifFalse : Term)
  | int (range : Range) (branches : List (Int × Term)) (dflt : Term)
end

/-- Modelled from the spec: module items.  An alias evaluates to its term;
a struct is an ordered sequence of fields of format terms. -/
inductive Item where
  | alias (term : Term)
  | struct (fields : List (String × Term))

/-- Modelled from the spec: the globals table maps a name to a type and an
optional definition, modelled as an association list with first-match
lookup standing in for the map `get` operation. -/
abbrev Globals := List (String × (Term × Option Term))

/-- Modelled from the spec: the item map of a checked module. -/
abbrev Items := List (String × Item)

/-- Lookup of a name in the globals table (the map `get` of the source). -/
def lookupGlobal : Globals → String → Option (Term × Option Term)
  | [], _ => none
  | (m, e) :: rest, n => if m = n then some e else lookupGlobal rest n

/-- Lookup of a name in the item map (the map `get` of the source). -/
def lookupItem : Items → String → Option Item
  | [], _ => none
  | (m, e) :: rest, n => if m = n then some e else lookupItem rest n

/-- Lookup of an integer key in the branch map of an `IntElim`. -/
def lookupBranch : List (Int × Term) → Int → Option Term
  | [], _ => none
  | (k, t) :: rest, n => if k = n then some t else lookupBranch rest n

/-- Evaluate a term into a semantic value (`eval` of `core/semantics.rs`).
The Rust function is generally recursive (it recurses into global
definitions and item alias bodies), so the embedding threads an explicit
fuel; `none` means the fuel ran out. -/
def eval : Nat → Globals → Items → Term → Option Value
  | 0, _, _, _ => none
  | fuel + 1, globals, items, term =>
    match term with
    | .global range name =>
      match lookupGlobal globals name with
      | none => some (.error range)
      | some (_, some defn) => eval fuel globals items defn
      | some (_, none) => some (.neutral (.global range name) [])
    | .item range name =>
      match lookupItem items name with
      | none => some (.error range)
      | some (.alias aliasTerm) => eval fuel globals items aliasTerm
      | some (.struct _) => some (.neutral (.item range name) [])
    | .ann t _ => eval fuel globals items t
    | .univ range u => some (.univ range u)
    | .functionType paramType bodyType =>
      match eval fuel globals items paramType with
      | none => none
      | some paramType2 =>
        match eval fuel globals items bodyType with
        | none => none
        | some bodyType2 => some (.functionType paramType2 bodyType2)
    | .functionElim head argument =>
      match eval fuel globals items head with
      | none => none
      | some (.neutral h elims) =>
        match eval fuel globals items argument with
        | none => none
        | some argument2 =>
          some (.neutral h (elims ++ [.function (Term.range term) argument2]))
      | some _ => some (.error (Term.range term))
    | .constant range c => some (.constant range c)
    | .boolElim range head ifTrue ifFalse =>
      match eval fuel globals items head with
      | none => none
      | some (.neutral (.global headRange name) []) =>
        if name = "true" then eval fuel globals items ifTrue
        else if name = "false" then eval fuel globals items ifFalse
        else some (.neutral (.global headRange name) [.bool range ifTrue ifFalse])
      | some (.neutral h elims) =>
        some (.neutral h (elims ++ [.bool range ifTrue ifFalse]))
      | some _ =>
        some (.neutral (.error (Term.range head)) [.bool range ifTrue ifFalse])
    | .intElim range head branches dflt =>
      match eval fuel globals items head with
      | none => none
      | some (.constant _ (.int value)) =>
        match lookupBranch branches value with
        | some branchTerm => eval fuel globals items branchTerm
        | none => eval fuel globals items dflt
      | some (.neutral h elims) =>
        some (.neutral h (elims ++ [.int range branches dflt]))
      | some _ =>
        some (.neutral (.error (Term.range head)) [.int range branches dflt])
    | .error range => some (.error range)

/-- The seed of the read-back fold: the term corresponding to a head. -/
def head_term : Head → Term
  | .global range name => .global range name
  | .item range name => .item range name
  | .error range => .error range

mutual
/-- Read a value back into the term syntax (`read_back` of
`core/semantics.rs`). -/
def read_back : Value → Term
  | .neutral head elims => read_back_spine (head_term head) elims
  | .univ range u => .univ range u
  | .functionType paramTy bodyTy => .functionType (read_back paramTy) (read_back bodyTy)
  | .constant range c => .constant range c
  | .error range => .error range

/-- The left fold of `read_back_neutral`: wrap the accumulated head term in
the term eliminators, innermost first. -/
def read_back_spine (acc : Term) : List Elim → Term
  | [] => acc
  | .function _ argument :: rest =>
    read_back_spine (.functionElim acc (read_back argument)) rest
  | .bool range ifTrue ifFalse :: rest =>
    read_back_spine (.boolElim range acc ifTrue ifFalse) rest
  | .int range branches dflt :: rest =>
    read_back_spine (.intElim range acc branches dflt) rest
end

/-- Read a neutral term back into the term syntax (`read_back_neutral` of
`core/semantics.rs`). -/
def read_back_neutral (head : Head) (elims : List Elim) : Term :=
  read_back_spine (head_term head) elims

mutual
/-- Modelled from the spec: structural equality of terms, ignoring ranges
(the `PartialEq` implementation that `==` on read-back terms uses). -/
def termEq : Term → Term → Bool
  | .global _ name0, .global _ name1 => decide (name0 = name1)
  | .item _ name0, .item _ name1 => decide (name0 = name1)
  | .ann term0 type0, .ann term1 type1 => termEq term0 term1 && termEq type0 type1
  | .univ _ u0, .univ _ u1 => decide (u0 = u1)
  | .functionType p0 b0, .functionType p1 b1 => termEq p0 p1 && termEq b0 b1
  | .functionElim h0 a0, .functionElim h1 a1 => termEq h0 h1 && termEq a0 a1
  | .constant _ c0, .constant _ c1 => decide (c0 = c1)
  | .boolElim _ h0 t0 f0, .boolElim _ h1 t1 f1 =>
    termEq h0 h1 && termEq t0 t1 && termEq f0 f1
  | .intElim _ h0 bs0 d0, .intElim _ h1 bs1 d1 =>
    termEq h0 h1 && branchesEq bs0 bs1 && termEq d0 d1
  | .error _, .error _ => true
  | _, _ => false

/-- Structural equality of `IntElim` branch maps: same keys in the same
order with structurally equal terms. -/
def branchesEq : List (Int × Term) → List (Int × Term) → Bool
  | [], [] => true
  | (k0, t0) :: rest0, (k1, t1) :: rest1 =>
    decide (k0 = k1) && termEq t0 t1 && branchesEq rest0 rest1
  | _, _ => false
end

/-- Check that two values are equal (`equal` of `core/semantics.rs`). -/
def equal : Value → Value → Bool
  | .neutral head0 elims0, .neutral head1 elims1 =>
    termEq (read_back_neutral head0 elims0) (read_back_neutral head1 elims1)
  | .univ _ u0, .univ _ u1 => decide (u0 = u1)
  | .functionType paramTy0 bodyTy0, .functionType paramTy1 bodyTy1 =>
    equal paramTy1 paramTy0 && equal bodyTy0 bodyTy1
  | .constant _ c0, .constant _ c1 => decide (c0 = c1)
  | .error _, _ => true
  | _, .error _ => true
  | _, _ => false
termination_by v1 v2 => sizeOf v1 + sizeOf v2

/-- Whether a value is the `Error` value (the one absorbed by `equal`). -/
def Value.isError : Value → Bool
  | .error _ => true
  | _ => false

/-- Whether a value contains no `Error` sub-value in a position that the
recursion of `equal` can reach (the parameter and body of function types). -/
def errorFree : Value → Bool
  | .error _ => false
  | .functionType p b => errorFree p && errorFree b
  | _ => true

/-- The evaluation relation: some amount of fuel suffices for `eval` to
return this value.  This is the graph of the (partial) Rust function. -/
def Evals (globals : Globals) (items : Items) (term : Term) (v : Value) : Prop :=
  ∃ fuel, eval fuel globals items term = some v

mutual
/-- Erase every source range of a term, replacing it by `(0, 0)`.  Two terms
are structurally equal ignoring ranges exactly when their erasures are
equal. -/
def strip : Term → Term
  | .global _ name => .global (0, 0) name
  | .item _ name => .item (0, 0) name
  | .ann t ty => .ann (strip t) (strip ty)
  | .univ _ u => .univ (0, 0) u
  | .functionType p b => .functionType (strip p) (strip b)
  | .functionElim h a => .functionElim (strip h) (strip a)
  | .constant _ c => .constant (0, 0) c
  | .boolElim _ h t f => .boolElim (0, 0) (strip h) (strip t) (strip f)
  | .intElim _ h bs d => .intElim (0, 0) (strip h) (stripBranches bs) (strip d)
  | .error _ => .error (0, 0)

/-- Range erasure of an `IntElim` branch map. -/
def stripBranches : List (Int × Term) → List (Int × Term)
  | [] => []
  | (k, t) :: rest => (k, strip t) :: stripBranches rest
end

mutual
/-- All names occurring in `Global` nodes of a term. -/
def globalNames : Term → List String
  | .global _ n => [n]
  | .item _ _ => []
  | .ann t ty => globalNames t ++ globalNames ty
  | .univ _ _ => []
  | .functionType p b => globalNames p ++ globalNames b
  | .functionElim h a => globalNames h ++ globalNames a
  | .constant _ _ => []
  | .boolElim _ h t f => globalNames h ++ globalNames t ++ globalNames f
  | .intElim _ h bs d => globalNames h ++ branchesGlobalNames bs ++ globalNames d
  | .error _ => []

/-- All names occurring in `Global` nodes of a branch map. -/
def branchesGlobalNames : List (Int × Term) → List String
  | [] => []
  | (_, t) :: rest => globalNames t ++ branchesGlobalNames rest
end

mutual
/-- All names occurring in `Item` nodes of a term. -/
def itemNames : Term → List String
  | .global _ _ => []
  | .item _ n => [n]
  | .ann t ty => itemNames t ++ itemNames ty
  | .univ _ _ => []
  | .functionType p b => itemNames p ++ itemNames b
  | .functionElim h a => itemNames h ++ itemNames a
  | .constant _ _ => []
  | .boolElim _ h t f => itemNames h ++ itemNames t ++ itemNames f
  | .intElim _ h bs d => itemNames h ++ branchesItemNames bs ++ itemNames d
  | .error _ => []

/-- All names occurring in `Item` nodes of a branch map. -/
def branchesItemNames : List (Int × Term) → List String
  | [] => []
  | (_, t) :: rest => itemNames t ++ branchesItemNames rest
end

/-- First-match lookup in an association list that also returns the
position of the entry found. -/
def lookupIdx {β : Type} : List (String × β) → String → Option (Nat × β)
  | [], _ => none
  | (m, b) :: rest, n =>
    if m = n then some (0, b)
    else
      match lookupIdx rest n with
      | none => none
      | some (k, b2) => some (k + 1, b2)

/-- The no-forward-reference discipline on the globals table: the
definition of an entry mentions no items, and every global it mentions
that resolves at all resolves to a strictly earlier entry. -/
def GlobalsWF (globals : Globals) : Prop :=
  ∀ n k ty d, lookupIdx globals n = some (k, (ty, some d)) →
    itemNames d = [] ∧
    ∀ m k2 e, m ∈ globalNames d → lookupIdx globals m = some (k2, e) → k2 < k

/-- The no-forward-reference discipline on the item map (the spec's own
invariant on checked modules): the body of an alias only mentions items
that resolve to strictly earlier entries. -/
def ItemsWF (items : Items) : Prop :=
  ∀ n k b, lookupIdx items n = some (k, Item.alias b) →
    ∀ m k2 e, m ∈ itemNames b → lookupIdx items m = some (k2, e) → k2 < k

/-- Correspondence between a value and the result of re-evaluating its
read-back: the two have equal read-backs, and one is a neutral exactly
when the other is, with the same head and with the two spines empty
together or non-empty together. -/
structure SimVal (v v2 : Value) : Prop where
  rb : read_back v2 = read_back v
  fwd : ∀ h es, v = .neutral h es → ∃ es2, v2 = .neutral h es2 ∧ (es = [] ↔ es2 = [])
  bwd : ∀ h es2, v2 = .neutral h es2 → ∃ es, v = .neutral h es ∧ (es = [] ↔ es2 = [])

/-- Modelled from the source `rust/emit.rs`: runtime format descriptors of
the emitted code (`RtType`). -/
inductive RtType where
  | u8 | u16Le | u16Be | u32Le | u32Be | u64Le | u64Be
  | i8 | i16Le | i16Be | i32Le | i32Be | i64Le | i64Be
  | f32Le | f32Be | f64Le | f64Be
  | invalidDataDescription
  deriving DecidableEq

/-- Modelled from the source `rust/emit.rs`: terms of the target IR
(`Term` of the `rust` module); floats are kept as bit patterns. -/
inductive RustTerm where
  | var (name : String)
  | bool (value : Bool)
  | u8 (value : Nat)
  | u16 (value : Nat)
  | u32 (value : Nat)
  | u64 (value : Nat)
  | i8 (value : Int)
  | i16 (value : Int)
  | i32 (value : Int)
  | i64 (value : Int)
  | f32 (bits : Nat)
  | f64 (bits : Nat)
  | call (f : RustTerm)
  | ifTerm (cond : RustTerm) (ifTrue : RustTerm) (ifFalse : RustTerm)

/-- Modelled from the source `rust/emit.rs`: types of the target IR
(`Type` of the `rust` module). -/
inductive RustType where
  | var (name : String)
  | u8 | u16 | u32 | u64 | i8 | i16 | i32 | i64 | f32 | f64 | bool
  | rt (ty : RtType)
  | ifTy (cond : RustTerm) (lhs : RustType) (rhs : RustType)

/-- Modelled from the spec: a field of a target-IR struct, with the doc
lines, name, host type and format type that `emit_struct_ty` reads. -/
structure TypeField where
  doc : List String
  name : String
  host_ty : RustType
  format_ty : RustType

/-- Modelled from the spec: a struct item of the target IR, with the doc
lines, derives, name and ordered fields that `emit_struct_ty` reads. -/
structure StructType where
  doc : List String
  derives : List String
  name : String
  fields : List TypeField

/-- Denotation of the read expression printed by `emit_ty_read` for a
format type, against an abstract runtime (`readP` is `ctxt.read::<T>()`
and `evalTerm` gives the run-time value of an emitted condition): a
variable or runtime type is one runtime read followed by `?`, a
conditional type reads one of its two arms, and any other type makes
emission fail (`unimplemented!` in the source), modelled as `none`. -/
def tyRead {σ ε α : Type} (readP : RustType → σ → Except ε (α × σ))
    (evalTerm : RustTerm → Bool) : RustType → Option (σ → Except ε (α × σ))
  | .var n => some (readP (.var n))
  | .rt ty => some (readP (.rt ty))
  | .ifTy cond lhs rhs =>
    match tyRead readP evalTerm lhs, tyRead readP evalTerm rhs with
    | some dl, some dr => some (fun s => if evalTerm cond then dl s else dr s)
    | _, _ => none
  | _ => none

/-- Denotation of the field-reading statements of the emitted `read`
function: one `let name = READ?;` per field in declaration order,
threading the reader context, stopping at the first error (the `?`
operator), and pairing each field name with the host value it binds. -/
def fieldsReader {σ ε α : Type} (readP : RustType → σ → Except ε (α × σ))
    (evalTerm : RustTerm → Bool) :
    List TypeField → Option (σ → Except ε (List (String × α) × σ))
  | [] => some (fun s => .ok ([], s))
  | field :: rest =>
    match tyRead readP evalTerm field.format_ty, fieldsReader readP evalTerm rest with
    | some rd, some restRd =>
      some (fun s =>
        match rd s with
        | .error e => .error e
        | .ok (v, s2) =>
          match restRd s2 with
          | .error e => .error e
          | .ok (vs, s3) => .ok ((field.name, v) :: vs, s3))
    | _, _ => none

/-- Denotation of the whole `read` function emitted by `emit_struct_ty`
for a struct item: an empty struct reads nothing and immediately succeeds
(`Ok(Name {})` in the source), and a non-empty struct runs its field reads
in declaration order and constructs the host struct, as the association
of field names to host values, only after all of them succeed. -/
def structReader {σ ε α : Type} (readP : RustType → σ → Except ε (α × σ))
    (evalTerm : RustTerm → Bool) (st : StructType) :
    Option (σ → Except ε (List (String × α) × σ)) :=
  if st.fields.isEmpty then some (fun s => .ok ([], s))
  else fieldsReader readP evalTerm st.fields

/-- The fields of the struct declaration emitted by `emit_struct_ty`, in
emission order: one `pub name: host_ty,` line per source field (and none
for an empty struct). -/
def emittedFields (st : StructType) : List (String × RustType) :=
  st.fields.map (fun field => (field.name, field.host_ty))

/-- Evaluation is monotone in the fuel: once `eval` returns a value, giving
it more fuel returns the same value. -/
theorem eval_mono (globals : Globals) (items : Items) :
    ∀ p q t v, p ≤ q → eval p globals items t = some v →
      eval q globals items t = some v := by
  intro p
  induction p with
  | zero => intro q t v _ h; simp [eval] at h
  | succ p ih =>
    intro q t v hpq h
    obtain ⟨q, rfl⟩ : ∃ r, q = r + 1 := ⟨q - 1, by omega⟩
    have hpq : p ≤ q := by omega
    cases t with
    | global r n =>
      simp only [eval] at h ⊢
      cases hg : lookupGlobal globals n with
      | none => simp only [hg] at h ⊢; exact h
      | some e =>
        obtain ⟨ty, d⟩ := e
        cases d with
        | none => simp only [hg] at h ⊢; exact h
        | some d => simp only [hg] at h ⊢; exact ih q d v hpq h
    | item r n =>
      simp only [eval] at h ⊢
      cases hg : lookupItem items n with
      | none => simp only [hg] at h ⊢; exact h
      | some e =>
        obtain b | fs := e
        · simp only [hg] at h ⊢; exact ih q b v hpq h
        · simp only [hg] at h ⊢; exact h
    | ann t ty =>
      simp only [eval] at h ⊢
      exact ih q t v hpq h
    | univ r u => simpa [eval] using h
    | functionType pt bt =>
      simp only [eval] at h ⊢
      cases hp : eval p globals items pt with
      | none => simp [hp] at h
      | some pv =>
        simp only [hp] at h
        rw [ih q pt pv hpq hp]
        cases hb : eval p globals items bt with
        | none => simp [hb] at h
        | some bv =>
          simp only [hb] at h
          rw [ih q bt bv hpq hb]
          exact h
    | functionElim hd arg =>
      simp only [eval] at h ⊢
      cases hh : eval p globals items hd with
      | none => simp [hh] at h
      | some w =>
        simp only [hh] at h
        rw [ih q hd w hpq hh]
        cases w with
        | neutral nh nes =>
          cases ha : eval p globals items arg with
          | none => simp [ha] at h
          | some av =>
            simp only [ha] at h
            rw [ih q arg av hpq ha]
            exact h
        | univ _ _ => exact h
        | functionType _ _ => exact h
        | constant _ _ => exact h
        | error _ => exact h
    | constant r c => simpa [eval] using h
    | boolElim r hd t f =>
      simp only [eval] at h ⊢
      cases hh : eval p globals items hd with
      | none => simp [hh] at h
      | some w =>
        simp only [hh] at h
        rw [ih q hd w hpq hh]
        cases w with
        | neutral nh nes =>
          cases nh with
          | global hr n =>
            cases nes with
            | nil =>
              by_cases hn : n = "true"
              · simp only [hn, if_true] at h ⊢
                exact ih q t v hpq h
              · by_cases hn2 : n = "false"
                · simp only [hn, hn2, if_false, if_true] at h ⊢
                  exact ih q f v hpq h
                · simp only [hn, hn2, if_false] at h ⊢
                  exact h
            | cons e es => exact h
          | item _ _ => exact h
          | error _ => exact h
        | univ _ _ => exact h
        | functionType _ _ => exact h
        | constant _ _ => exact h
        | error _ => exact h
    | intElim r hd bs d =>
      simp only [eval] at h ⊢
      cases hh : eval p globals items hd with
      | none => simp [hh] at h
      | some w =>
        simp only [hh] at h
        rw [ih q hd w hpq hh]
        cases w with
        | neutral nh nes => exact h
        | univ _ _ => exact h
        | functionType _ _ => exact h
        | constant cr c =>
          cases c with
          | int value =>
            cases hb : lookupBranch bs value with
            | none => simp only [hb] at h ⊢; exact ih q d v hpq h
            | some bt => simp only [hb] at h ⊢; exact ih q bt v hpq h
          | f32 _ => exact h
          | f64 _ => exact h
        | error _ => exact h
    | error r => simpa [eval] using h

/-- Evaluation is deterministic: any two fuels that make `eval` return a
value return the same value. -/
theorem evals_det {globals : Globals} {items : Items} {t : Term} {v1 v2 : Value}
    (h1 : Evals globals items t v1) (h2 : Evals globals items t v2) : v1 = v2 := by
  obtain ⟨p1, h1⟩ := h1
  obtain ⟨p2, h2⟩ := h2
  have e1 := eval_mono globals items p1 (max p1 p2) t v1 (Nat.le_max_left _ _) h1
  have e2 := eval_mono globals items p2 (max p1 p2) t v2 (Nat.le_max_right _ _) h2
  rw [e1] at e2
  simpa using e2

/-- C4: evaluation of `Global(r, n)` follows the globals table (definition:
evaluate it; abstract entry: bare neutral; absent: `Error(r)`), and
evaluation of `Item(r, n)` follows the item map (alias: evaluate its body;
struct: bare neutral; absent: `Error(r)`). -/
theorem eval_global_item_spec (globals : Globals) (items : Items) :
    (∀ r n ty d, lookupGlobal globals n = some (ty, some d) →
      ∀ v, Evals globals items (.global r n) v ↔ Evals globals items d v) ∧
    (∀ r n ty, lookupGlobal globals n = some (ty, none) →
      Evals globals items (.global r n) (.neutral (.global r n) [])) ∧
    (∀ r n, lookupGlobal globals n = none →
      Evals globals items (.global r n) (.error r)) ∧
    (∀ r n b, lookupItem items n = some (.alias b) →
      ∀ v, Evals globals items (.item r n) v ↔ Evals globals items b v) ∧
    (∀ r n fs, lookupItem items n = some (.struct fs) →
      Evals globals items (.item r n) (.neutral (.item r n) [])) ∧
    (∀ r n, lookupItem items n = none →
      Evals globals items (.item r n) (.error r)) := by
  refine ⟨?_, ?_, ?_, ?_, ?_, ?_⟩
  · intro r n ty d hg v
    constructor
    · rintro ⟨p, hp⟩
      cases p with
      | zero => simp [eval] at hp
      | succ p =>
        simp only [eval, hg] at hp
        exact ⟨p, hp⟩
    · rintro ⟨p, hp⟩
      exact ⟨p + 1, by simp only [eval, hg]; exact hp⟩
  · intro r n ty hg
    exact ⟨1, by simp [eval, hg]⟩
  · intro r n hg
    exact ⟨1, by simp [eval, hg]⟩
  · intro r n b hg v
    constructor
    · rintro ⟨p, hp⟩
      cases p with
      | zero => simp [eval] at hp
      | succ p =>
        simp only [eval, hg] at hp
        exact ⟨p, hp⟩
    · rintro ⟨p, hp⟩
      exact ⟨p + 1, by simp only [eval, hg]; exact hp⟩
  · intro r n fs hg
    exact ⟨1, by simp [eval, hg]⟩
  · intro r n hg
    exact ⟨1, by simp [eval, hg]⟩

/-- C2: evaluation of `BoolElim(r, head, t, f)`: a head evaluating to the
bare neutral `Global(_, "true")` selects `t`, to `Global(_, "false")`
selects `f`; any other neutral head has `Bool(r, t, f)` appended to its
spine; a non-neutral head produces `Neutral(Error, [Bool(r, t, f)])`. -/
theorem eval_boolElim_spec (globals : Globals) (items : Items)
    (r : Range) (head t f : Term) :
    (∀ hr, Evals globals items head (.neutral (.global hr "true") []) →
      ∀ v, Evals globals items (.boolElim r head t f) v ↔ Evals globals items t v) ∧
    (∀ hr, Evals globals items head (.neutral (.global hr "false") []) →
      ∀ v, Evals globals items (.boolElim r head t f) v ↔ Evals globals items f v) ∧
    (∀ h es, Evals globals items head (.neutral h es) →
      (∀ hr, ¬(h = .global hr "true" ∧ es = [])) →
      (∀ hr, ¬(h = .global hr "false" ∧ es = [])) →
      Evals globals items (.boolElim r head t f)
        (.neutral h (es ++ [.bool r t f]))) ∧
    (∀ w, Evals globals items head w → (∀ h es, w ≠ .neutral h es) →
      Evals globals items (.boolElim r head t f)
        (.neutral (.error (Term.range head)) [.bool r t f])) := by
  refine ⟨?_, ?_, ?_, ?_⟩
  · intro hr hhead v
    constructor
    · rintro ⟨p, hp⟩
      cases p with
      | zero => simp [eval] at hp
      | succ p =>
        simp only [eval] at hp
        cases hw : eval p globals items head with
        | none => simp [hw] at hp
        | some w =>
          have : w = .neutral (.global hr "true") [] :=
            evals_det ⟨p, hw⟩ hhead
          subst this
          simp only [hw, if_true, reduceIte] at hp
          exact ⟨p, hp⟩
    · rintro ⟨p, hp⟩
      obtain ⟨p0, hp0⟩ := hhead
      refine ⟨max p0 p + 1, ?_⟩
      have h1 := eval_mono globals items p0 (max p0 p) head _ (Nat.le_max_left _ _) hp0
      have h2 := eval_mono globals items p (max p0 p) t v (Nat.le_max_right _ _) hp
      simp only [eval, h1, reduceIte]
      exact h2
  · intro hr hhead v
    constructor
    · rintro ⟨p, hp⟩
      cases p with
      | zero => simp [eval] at hp
      | succ p =>
        simp only [eval] at hp
        cases hw : eval p globals items head with
        | none => simp [hw] at hp
        | some w =>
          have : w = .neutral (.global hr "false") [] :=
            evals_det ⟨p, hw⟩ hhead
          subst this
          simp only [hw, reduceIte] at hp
          exact ⟨p, hp⟩
    · rintro ⟨p, hp⟩
      obtain ⟨p0, hp0⟩ := hhead
      refine ⟨max p0 p + 1, ?_⟩
      have h1 := eval_mono globals items p0 (max p0 p) head _ (Nat.le_max_left _ _) hp0
      have h2 := eval_mono globals items p (max p0 p) f v (Nat.le_max_right _ _) hp
      simp only [eval, h1, reduceIte]
      exact h2
  · intro h es hhead hne1 hne2
    obtain ⟨p, hp⟩ := hhead
    refine ⟨p + 1, ?_⟩
    simp only [eval, hp]
    cases h with
    | global hr n =>
      cases es with
      | nil =>
        have hn1 : ¬(n = "true") := fun hn => hne1 hr (by simp [hn])
        have hn2 : ¬(n = "false") := fun hn => hne2 hr (by simp [hn])
        simp [hn1, hn2]
      | cons e es => rfl
    | item _ _ => cases es <;> rfl
    | error _ => cases es <;> rfl
  · intro w hhead hnn
    obtain ⟨p, hp⟩ := hhead
    refine ⟨p + 1, ?_⟩
    simp only [eval, hp]
    cases w with
    | neutral h es => exact absurd rfl (hnn h es)
    | univ _ _ => rfl
    | functionType _ _ => rfl
    | constant _ _ => rfl
    | error _ => rfl

/-- C3: evaluation of `IntElim(r, head, branches, dflt)`: a head evaluating
to `Constant(Int(n))` selects `branches[n]` when present and `dflt`
otherwise (so with an empty branch map always `dflt`); a neutral head has
`Int(r, branches, dflt)` appended to its spine; any other head produces
`Neutral(Error, [Int(r, branches, dflt)])`. -/
theorem eval_intElim_spec (globals : Globals) (items : Items)
    (r : Range) (head : Term) (branches : List (Int × Term)) (dflt : Term) :
    (∀ cr n bt, Evals globals items head (.constant cr (.int n)) →
      lookupBranch branches n = some bt →
      ∀ v, Evals globals items (.intElim r head branches dflt) v ↔
        Evals globals items bt v) ∧
    (∀ cr n, Evals globals items head (.constant cr (.int n)) →
      lookupBranch branches n = none →
      ∀ v, Evals globals items (.intElim r head branches dflt) v ↔
        Evals globals items dflt v) ∧
    (branches = [] → ∀ cr n, Evals globals items head (.constant cr (.int n)) →
      ∀ v, Evals globals items (.intElim r head branches dflt) v ↔
        Evals globals items dflt v) ∧
    (∀ h es, Evals globals items head (.neutral h es) →
      Evals globals items (.intElim r head branches dflt)
        (.neutral h (es ++ [.int r branches dflt]))) ∧
    (∀ w, Evals globals items head w → (∀ h es, w ≠ .neutral h es) →
      (∀ cr n, w ≠ .constant cr (.int n)) →
      Evals globals items (.intElim r head branches dflt)
        (.neutral (.error (Term.range head)) [.int r branches dflt])) := by
  have hdisp : ∀ cr n sel, Evals globals items head (.constant cr (.int n)) →
      lookupBranch branches n = sel →
      ∀ bt, (match sel with | some b => b | none => dflt) = bt →
      ∀ v, Evals globals items (.intElim r head branches dflt) v ↔
        Evals globals items bt v := by
    intro cr n sel hhead hsel bt hbt v
    constructor
    · rintro ⟨p, hp⟩
      cases p with
      | zero => simp [eval] at hp
      | succ p =>
        simp only [eval] at hp
        cases hw : eval p globals items head with
        | none => simp [hw] at hp
        | some w =>
          have : w = .constant cr (.int n) := evals_det ⟨p, hw⟩ hhead
          subst this
          simp only [hw] at hp
          cases sel with
          | none => subst hbt; rw [hsel] at hp; exact ⟨p, hp⟩
          | some b => subst hbt; rw [hsel] at hp; exact ⟨p, hp⟩
    · rintro ⟨p, hp⟩
      obtain ⟨p0, hp0⟩ := hhead
      refine ⟨max p0 p + 1, ?_⟩
      have h1 := eval_mono globals items p0 (max p0 p) head _ (Nat.le_max_left _ _) hp0
      have h2 := eval_mono globals items p (max p0 p) bt v (Nat.le_max_right _ _) hp
      simp only [eval, h1]
      cases sel with
      | none => subst hbt; rw [hsel]; exact h2
      | some b => subst hbt; rw [hsel]; exact h2
  refine ⟨?_, ?_, ?_, ?_, ?_⟩
  · intro cr n bt hhead hsel
    exact hdisp cr n (some bt) hhead hsel bt rfl
  · intro cr n hhead hsel
    exact hdisp cr n none hhead hsel dflt rfl
  · intro hbr cr n hhead
    exact hdisp cr n none hhead (by simp [hbr, lookupBranch]) dflt rfl
  · intro h es hhead
    obtain ⟨p, hp⟩ := hhead
    refine ⟨p + 1, ?_⟩
    simp only [eval, hp]
  · intro w hhead hnn hnc
    obtain ⟨p, hp⟩ := hhead
    refine ⟨p + 1, ?_⟩
    cases w with
    | neutral h es => exact absurd rfl (hnn h es)
    | univ _ _ => simp only [eval, hp]
    | functionType _ _ => simp only [eval, hp]
    | constant cr c =>
      cases c with
      | int n => exact absurd rfl (hnc cr n)
      | f32 _ => simp only [eval, hp]
      | f64 _ => simp only [eval, hp]
    | error _ => simp only [eval, hp]

/-- C4 witness: with a globals table defining `x` as the constant `5`, the
reference `Global(r, "x")` evaluates to that constant. -/
theorem eval_global_item_spec_witness :
    lookupGlobal [("x", (.univ (0, 0) (.type 0), some (.constant (1, 1) (.int 5))))] "x"
      = some (.univ (0, 0) (.type 0), some (.constant (1, 1) (.int 5))) ∧
    Evals [("x", (.univ (0, 0) (.type 0), some (.constant (1, 1) (.int 5))))] []
      (.global (2, 2) "x") (.constant (1, 1) (.int 5)) :=
  ⟨rfl,
   ((eval_global_item_spec
       [("x", (.univ (0, 0) (.type 0), some (.constant (1, 1) (.int 5))))] []).1
     (2, 2) "x" (.univ (0, 0) (.type 0)) (.constant (1, 1) (.int 5)) rfl
     (.constant (1, 1) (.int 5))).mpr ⟨1, rfl⟩⟩

/-- C2 witness: with `true` abstract in the globals table, eliminating a
boolean on `Global("true")` selects the first branch. -/
theorem eval_boolElim_spec_witness :
    Evals [("true", (.univ (0, 0) (.type 0), none))] [] (.global (1, 1) "true")
      (.neutral (.global (1, 1) "true") []) ∧
    Evals [("true", (.univ (0, 0) (.type 0), none))] []
      (.boolElim (2, 2) (.global (1, 1) "true")
        (.constant (3, 3) (.int 1)) (.constant (4, 4) (.int 2)))
      (.constant (3, 3) (.int 1)) :=
  ⟨⟨1, rfl⟩,
   ((eval_boolElim_spec [("true", (.univ (0, 0) (.type 0), none))] []
       (2, 2) (.global (1, 1) "true")
       (.constant (3, 3) (.int 1)) (.constant (4, 4) (.int 2))).1
     (1, 1) ⟨1, rfl⟩ (.constant (3, 3) (.int 1))).mpr ⟨1, rfl⟩⟩

/-- C3 witness: `IntElim` on the constant `3` with branch map
`{1 -> 10, 3 -> 30}` selects the branch stored at key `3`. -/
theorem eval_intElim_spec_witness :
    Evals [] [] (.constant (0, 0) (.int 3)) (.constant (0, 0) (.int 3)) ∧
    lookupBranch [(1, .constant (1, 1) (.int 10)), (3, .constant (2, 2) (.int 30))] 3
      = some (.constant (2, 2) (.int 30)) ∧
    Evals [] []
      (.intElim (5, 5) (.constant (0, 0) (.int 3))
        [(1, .constant (1, 1) (.int 10)), (3, .constant (2, 2) (.int 30))]
        (.constant (3, 3) (.int 0)))
      (.constant (2, 2) (.int 30)) :=
  ⟨⟨1, rfl⟩, rfl,
   ((eval_intElim_spec [] [] (5, 5) (.constant (0, 0) (.int 3))
       [(1, .constant (1, 1) (.int 10)), (3, .constant (2, 2) (.int 30))]
       (.constant (3, 3) (.int 0))).1
     (0, 0) 3 (.constant (2, 2) (.int 30)) ⟨1, rfl⟩ rfl
     (.constant (2, 2) (.int 30))).mpr ⟨1, rfl⟩⟩

mutual
/-- The Boolean term comparison decides equality of range erasures. -/
theorem termEq_iff_strip (a b : Term) : termEq a b = true ↔ strip a = strip b := by
  cases a <;> cases b <;> try simp [termEq, strip]
  · rename_i t0 ty0 t1 ty1
    rw [termEq_iff_strip t0 t1, termEq_iff_strip ty0 ty1]
  · rename_i p0 b0 p1 b1
    rw [termEq_iff_strip p0 p1, termEq_iff_strip b0 b1]
  · rename_i h0 a0 h1 a1
    rw [termEq_iff_strip h0 h1, termEq_iff_strip a0 a1]
  · rename_i r0 h0 t0 f0 r1 h1 t1 f1
    rw [termEq_iff_strip h0 h1, termEq_iff_strip t0 t1, termEq_iff_strip f0 f1]
    exact and_assoc
  · rename_i r0 h0 bs0 d0 r1 h1 bs1 d1
    rw [termEq_iff_strip h0 h1, branchesEq_iff_strip bs0 bs1, termEq_iff_strip d0 d1]
    exact and_assoc

/-- The Boolean branch-map comparison decides equality of range erasures. -/
theorem branchesEq_iff_strip (bs cs : List (Int × Term)) :
    branchesEq bs cs = true ↔ stripBranches bs = stripBranches cs := by
  cases bs <;> cases cs <;> try simp [branchesEq, stripBranches]
  · rename_i hd0 tl0 hd1 tl1
    obtain ⟨k0, t0⟩ := hd0
    obtain ⟨k1, t1⟩ := hd1
    simp [branchesEq, stripBranches,
      termEq_iff_strip t0 t1, branchesEq_iff_strip tl0 tl1]
end

/-- Term comparison is reflexive. -/
theorem termEq_refl (t : Term) : termEq t t = true :=
  (termEq_iff_strip t t).mpr rfl

/-- Term comparison is symmetric. -/
theorem termEq_symm (a b : Term) : termEq a b = termEq b a := by
  cases h1 : termEq a b <;> cases h2 : termEq b a <;> try rfl
  · have := (termEq_iff_strip a b).mpr ((termEq_iff_strip b a).mp h2).symm
    rw [h1] at this
    exact this
  · have := (termEq_iff_strip b a).mpr ((termEq_iff_strip a b).mp h1).symm
    rw [h2] at this
    exact this.symm

/-- Term comparison is transitive. -/
theorem termEq_trans {a b c : Term} (hab : termEq a b = true)
    (hbc : termEq b c = true) : termEq a c = true :=
  (termEq_iff_strip a c).mpr
    (((termEq_iff_strip a b).mp hab).trans ((termEq_iff_strip b c).mp hbc))

/-- Value equality is reflexive. -/
theorem equal_refl (v : Value) : equal v v = true := by
  cases v with
  | neutral h es => simp [equal, termEq_refl]
  | univ r u => simp [equal]
  | functionType p b => simp [equal, equal_refl p, equal_refl b]
  | constant r c => simp [equal]
  | error r => simp [equal]
termination_by sizeOf v

/-- Value equality is symmetric. -/
theorem equal_symm (a b : Value) : equal a b = equal b a := by
  cases a <;> cases b <;> try simp [equal]
  · rename_i h0 es0 h1 es1
    exact termEq_symm _ _
  · rename_i r0 u0 r1 u1
    exact eq_comm
  · rename_i p0 b0 p1 b1
    rw [equal_symm p1 p0, equal_symm b0 b1]
  · rename_i r0 c0 r1 c1
    exact eq_comm
termination_by sizeOf a + sizeOf b

/-- Value equality is transitive whenever the middle value contains no
`Error` sub-value in a position reachable by the recursion of `equal`. -/
theorem equal_trans (a b c : Value) (hb : errorFree b = true)
    (hab : equal a b = true) (hbc : equal b c = true) : equal a c = true := by
  cases b with
  | error rb => simp [errorFree] at hb
  | neutral hb0 esb =>
    cases a with
    | error ra => cases c <;> simp [equal]
    | neutral ha0 esa =>
      cases c with
      | error rc => simp [equal]
      | neutral hc0 esc =>
        simp only [equal] at hab hbc ⊢
        exact termEq_trans hab hbc
      | univ _ _ => simp [equal] at hbc
      | functionType _ _ => simp [equal] at hbc
      | constant _ _ => simp [equal] at hbc
    | univ _ _ => simp [equal] at hab
    | functionType _ _ => simp [equal] at hab
    | constant _ _ => simp [equal] at hab
  | univ rb ub =>
    cases a with
    | error ra => cases c <;> simp [equal]
    | univ ra ua =>
      cases c with
      | error rc => simp [equal]
      | univ rc uc =>
        simp only [equal, decide_eq_true_eq] at hab hbc ⊢
        exact hab.trans hbc
      | neutral _ _ => simp [equal] at hbc
      | functionType _ _ => simp [equal] at hbc
      | constant _ _ => simp [equal] at hbc
    | neutral _ _ => simp [equal] at hab
    | functionType _ _ => simp [equal] at hab
    | constant _ _ => simp [equal] at hab
  | constant rb cb =>
    cases a with
    | error ra => cases c <;> simp [equal]
    | constant ra ca =>
      cases c with
      | error rc => simp [equal]
      | constant rc cc =>
        simp only [equal, decide_eq_true_eq] at hab hbc ⊢
        exact hab.trans hbc
      | neutral _ _ => simp [equal] at hbc
      | univ _ _ => simp [equal] at hbc
      | functionType _ _ => simp [equal] at hbc
    | neutral _ _ => simp [equal] at hab
    | univ _ _ => simp [equal] at hab
    | functionType _ _ => simp [equal] at hab
  | functionType pb bb =>
    have hb2 : errorFree pb = true ∧ errorFree bb = true := by
      simpa [errorFree] using hb
    cases a with
    | error ra => cases c <;> simp [equal]
    | functionType pa ba =>
      cases c with
      | error rc => simp [equal]
      | functionType pc bc =>
        simp only [equal, Bool.and_eq_true] at hab hbc ⊢
        exact ⟨equal_trans pc pb pa hb2.1 hbc.1 hab.1,
               equal_trans ba bb bc hb2.2 hab.2 hbc.2⟩
      | neutral _ _ => simp [equal] at hbc
      | univ _ _ => simp [equal] at hbc
      | constant _ _ => simp [equal] at hbc
    | neutral _ _ => simp [equal] at hab
    | univ _ _ => simp [equal] at hab
    | constant _ _ => simp [equal] at hab
termination_by sizeOf b

/-- C5: the `Error` value is definitionally equal to every value, on either
side and regardless of the other value's constructor. -/
theorem equal_error_spec (r : Range) (v : Value) :
    equal (.error r) v = true ∧ equal v (.error r) = true := by
  cases v <;> simp [equal]

/-- C6 counterexample: `equal` is not transitive on three values none of
which is the `Error` value — a function type with an `Error` parameter in
the middle breaks the chain. -/
theorem equal_trans_counterexample :
    Value.isError (.functionType (.univ (0, 0) (.type 0)) (.univ (0, 0) (.type 0))) = false ∧
    Value.isError (.functionType (.error (0, 0)) (.univ (0, 0) (.type 0))) = false ∧
    Value.isError (.functionType (.constant (0, 0) (.int 0)) (.univ (0, 0) (.type 0))) = false ∧
    equal (.functionType (.univ (0, 0) (.type 0)) (.univ (0, 0) (.type 0)))
      (.functionType (.error (0, 0)) (.univ (0, 0) (.type 0))) = true ∧
    equal (.functionType (.error (0, 0)) (.univ (0, 0) (.type 0)))
      (.functionType (.constant (0, 0) (.int 0)) (.univ (0, 0) (.type 0))) = true ∧
    equal (.functionType (.univ (0, 0) (.type 0)) (.univ (0, 0) (.type 0)))
      (.functionType (.constant (0, 0) (.int 0)) (.univ (0, 0) (.type 0))) = false := by
  refine ⟨rfl, rfl, rfl, ?_, ?_, ?_⟩ <;> simp [equal]

/-- C6 (amended): `equal` is reflexive and symmetric, and it is transitive
on any three values whose middle value contains no `Error` sub-value (not
merely is not `Error` itself). -/
theorem equal_equivalence_spec :
    (∀ v, equal v v = true) ∧
    (∀ a b, equal a b = equal b a) ∧
    (∀ a b c, errorFree b = true → equal a b = true → equal b c = true →
      equal a c = true) :=
  ⟨equal_refl, equal_symm, fun a b c => equal_trans a b c⟩

/-- C6 witness: the amended transitivity applies at concrete universes. -/
theorem equal_equivalence_spec_witness :
    errorFree (.univ (2, 2) (.type 0)) = true ∧
    equal (.univ (1, 1) (.type 0)) (.univ (3, 3) (.type 0)) = true :=
  ⟨by simp [errorFree],
   equal_equivalence_spec.2.2 _ (.univ (2, 2) (.type 0)) _
     (by simp [errorFree]) (by simp [equal]) (by simp [equal])⟩

/-- C8: float constants compare by bit pattern — negative zero is distinct
from positive zero, and a NaN bit pattern is equal to itself, for both the
F32 and F64 constants. -/
theorem equal_float_bits_spec (r1 r2 : Range) :
    equal (.constant r1 (.f32 0x80000000)) (.constant r2 (.f32 0x00000000)) = false ∧
    equal (.constant r1 (.f32 0x7FC00000)) (.constant r2 (.f32 0x7FC00000)) = true ∧
    equal (.constant r1 (.f64 0x8000000000000000))
      (.constant r2 (.f64 0x0000000000000000)) = false ∧
    equal (.constant r1 (.f64 0x7FF8000000000000))
      (.constant r2 (.f64 0x7FF8000000000000)) = true := by
  refine ⟨?_, ?_, ?_, ?_⟩ <;> simp [equal]

/-- C10: a neutral with an `Error` head is never equal to a non-neutral,
non-`Error` value, and two error-headed neutrals are equal exactly when
their read-back terms are structurally equal — the absorption of the plain
`Error` value does not extend to error-headed neutrals. -/
theorem equal_error_neutral_spec (r : Range) (es : List Elim) (v : Value)
    (hnn : ∀ h es2, v ≠ .neutral h es2) (hne : ∀ r2, v ≠ .error r2) :
    equal (.neutral (.error r) es) v = false ∧
    ∀ r1 es1 r2 es2,
      equal (.neutral (.error r1) es1) (.neutral (.error r2) es2) = true ↔
        termEq (read_back_neutral (.error r1) es1)
          (read_back_neutral (.error r2) es2) = true := by
  constructor
  · cases v with
    | neutral h es2 => exact absurd rfl (hnn h es2)
    | error r2 => exact absurd rfl (hne r2)
    | univ _ _ => simp [equal]
    | functionType _ _ => simp [equal]
    | constant _ _ => simp [equal]
  · intro r1 es1 r2 es2
    simp only [equal]

/-- C10 witness: an error-headed neutral is not equal to a universe. -/
theorem equal_error_neutral_spec_witness :
    equal (.neutral (.error (0, 0)) []) (.univ (1, 1) (.type 0)) = false :=
  (equal_error_neutral_spec (0, 0) [] (.univ (1, 1) (.type 0))
    (by intro h es2; simp) (by intro r2; simp)).1

/-- Plain lookup agrees with indexed lookup on the globals table. -/
theorem lookupGlobal_eq_idx (globals : Globals) (n : String) :
    lookupGlobal globals n = Option.map Prod.snd (lookupIdx globals n) := by
  induction globals with
  | nil => rfl
  | cons hd rest ih =>
    obtain ⟨m, e⟩ := hd
    by_cases hm : m = n
    · simp [lookupGlobal, lookupIdx, hm]
    · simp only [lookupGlobal, lookupIdx, hm, if_false]
      rw [ih]
      cases lookupIdx rest n with
      | none => rfl
      | some ke => obtain ⟨k, b⟩ := ke; rfl

/-- Plain lookup agrees with indexed lookup on the item map. -/
theorem lookupItem_eq_idx (items : Items) (n : String) :
    lookupItem items n = Option.map Prod.snd (lookupIdx items n) := by
  induction items with
  | nil => rfl
  | cons hd rest ih =>
    obtain ⟨m, e⟩ := hd
    by_cases hm : m = n
    · simp [lookupItem, lookupIdx, hm]
    · simp only [lookupItem, lookupIdx, hm, if_false]
      rw [ih]
      cases lookupIdx rest n with
      | none => rfl
      | some ke => obtain ⟨k, b⟩ := ke; rfl

/-- Indexed lookup returns a position inside the list. -/
theorem lookupIdx_lt_length {β : Type} (l : List (String × β)) (n : String) :
    ∀ k b, lookupIdx l n = some (k, b) → k < l.length := by
  induction l with
  | nil => intro k b h; simp [lookupIdx] at h
  | cons hd rest ih =>
    obtain ⟨m, e⟩ := hd
    intro k b h
    by_cases hm : m = n
    · simp [lookupIdx, hm] at h
      obtain ⟨hk, hb⟩ := h
      simp [List.length_cons]
      omega
    · simp only [lookupIdx, hm, if_false] at h
      cases hrest : lookupIdx rest n with
      | none => rw [hrest] at h; simp at h
      | some ke =>
        obtain ⟨k2, b2⟩ := ke
        rw [hrest] at h
        simp only [Option.some.injEq, Prod.mk.injEq] at h
        have := ih k2 b2 hrest
        simp [List.length]
        omega



/-- A branch found in a branch map is smaller than the map. -/
theorem lookupBranch_sizeOf (bs : List (Int × Term)) (n : Int) (bt : Term)
    (h : lookupBranch bs n = some bt) : sizeOf bt < sizeOf bs := by
  induction bs with
  | nil => simp [lookupBranch] at h
  | cons hd rest ih =>
    obtain ⟨k, t⟩ := hd
    by_cases hk : k = n
    · subst hk
      simp [lookupBranch] at h
      subst h
      simp
      omega
    · simp only [lookupBranch, hk, if_false] at h
      have := ih h
      simp
      omega

/-- Global names of a found branch occur among those of the branch map. -/
theorem lookupBranch_globalNames (bs : List (Int × Term)) (n : Int) (bt : Term)
    (h : lookupBranch bs n = some bt) :
    ∀ m, m ∈ globalNames bt → m ∈ branchesGlobalNames bs := by
  induction bs with
  | nil => simp [lookupBranch] at h
  | cons hd rest ih =>
    obtain ⟨k, t⟩ := hd
    by_cases hk : k = n
    · subst hk
      simp [lookupBranch] at h
      subst h
      intro m hm
      simp [branchesGlobalNames, hm]
    · simp only [lookupBranch, hk, if_false] at h
      intro m hm
      simp [branchesGlobalNames]
      exact Or.inr (ih h m hm)

/-- Item names of a found branch occur among those of the branch map. -/
theorem lookupBranch_itemNames (bs : List (Int × Term)) (n : Int) (bt : Term)
    (h : lookupBranch bs n = some bt) :
    ∀ m, m ∈ itemNames bt → m ∈ branchesItemNames bs := by
  induction bs with
  | nil => simp [lookupBranch] at h
  | cons hd rest ih =>
    obtain ⟨k, t⟩ := hd
    by_cases hk : k = n
    · subst hk
      simp [lookupBranch] at h
      subst h
      intro m hm
      simp [branchesItemNames, hm]
    · simp only [lookupBranch, hk, if_false] at h
      intro m hm
      simp [branchesItemNames]
      exact Or.inr (ih h m hm)



/-- Totality of `eval` on terms that mention no items, when the globals
table is well-founded and the term's global references are bounded. -/
theorem eval_total_of_item_free (globals : Globals) (items : Items)
    (hg : GlobalsWF globals) (j : Nat) (t : Term)
    (hb : ∀ m k e, m ∈ globalNames t → lookupIdx globals m = some (k, e) → k < j)
    (hit : itemNames t = []) : ∃ p v, eval p globals items t = some v := by
  cases t with
  | global r n =>
    cases hgl : lookupGlobal globals n with
    | none => exact ⟨1, .error r, by simp [eval, hgl]⟩
    | some e =>
      obtain ⟨ty, d⟩ := e
      cases d with
      | none => exact ⟨1, .neutral (.global r n) [], by simp [eval, hgl]⟩
      | some d =>
        have hidx := lookupGlobal_eq_idx globals n
        rw [hgl] at hidx
        cases hix : lookupIdx globals n with
        | none => rw [hix] at hidx; simp at hidx
        | some ke =>
          obtain ⟨k, e2⟩ := ke
          rw [hix] at hidx
          simp only [Option.map, Option.some.injEq] at hidx
          subst hidx
          have hk : k < j := hb n k (ty, some d) (by simp [globalNames]) hix
          obtain ⟨hdit, hdref⟩ := hg n k ty d hix
          obtain ⟨p, v, hp⟩ := eval_total_of_item_free globals items hg k d hdref hdit
          exact ⟨p + 1, v, by simp only [eval, hgl]; exact hp⟩
  | item r n => simp [itemNames] at hit
  | ann t ty =>
    simp only [itemNames, List.append_eq_nil] at hit
    obtain ⟨p, v, hp⟩ := eval_total_of_item_free globals items hg j t
      (fun m k e hm hl => hb m k e (by simp [globalNames, hm]) hl) hit.1
    exact ⟨p + 1, v, by simp only [eval]; exact hp⟩
  | univ r u => exact ⟨1, .univ r u, by simp [eval]⟩
  | functionType pt bt =>
    simp only [itemNames, List.append_eq_nil] at hit
    obtain ⟨p1, v1, h1⟩ := eval_total_of_item_free globals items hg j pt
      (fun m k e hm hl => hb m k e (by simp [globalNames, hm]) hl) hit.1
    obtain ⟨p2, v2, h2⟩ := eval_total_of_item_free globals items hg j bt
      (fun m k e hm hl => hb m k e (by simp [globalNames, hm]) hl) hit.2
    have m1 := eval_mono globals items p1 (max p1 p2) pt v1 (Nat.le_max_left _ _) h1
    have m2 := eval_mono globals items p2 (max p1 p2) bt v2 (Nat.le_max_right _ _) h2
    exact ⟨max p1 p2 + 1, .functionType v1 v2, by simp only [eval, m1, m2]⟩
  | functionElim hd a =>
    simp only [itemNames, List.append_eq_nil] at hit
    obtain ⟨p1, w, h1⟩ := eval_total_of_item_free globals items hg j hd
      (fun m k e hm hl => hb m k e (by simp [globalNames, hm]) hl) hit.1
    obtain ⟨p2, av, h2⟩ := eval_total_of_item_free globals items hg j a
      (fun m k e hm hl => hb m k e (by simp [globalNames, hm]) hl) hit.2
    have m1 := eval_mono globals items p1 (max p1 p2) hd w (Nat.le_max_left _ _) h1
    have m2 := eval_mono globals items p2 (max p1 p2) a av (Nat.le_max_right _ _) h2
    cases w with
    | neutral nh nes =>
      exact ⟨max p1 p2 + 1,
        .neutral nh (nes ++ [.function (Term.range (.functionElim hd a)) av]),
        by simp only [eval, m1, m2]⟩
    | univ _ _ =>
      exact ⟨max p1 p2 + 1, .error (Term.range (.functionElim hd a)),
        by simp only [eval, m1]⟩
    | functionType _ _ =>
      exact ⟨max p1 p2 + 1, .error (Term.range (.functionElim hd a)),
        by simp only [eval, m1]⟩
    | constant _ _ =>
      exact ⟨max p1 p2 + 1, .error (Term.range (.functionElim hd a)),
        by simp only [eval, m1]⟩
    | error _ =>
      exact ⟨max p1 p2 + 1, .error (Term.range (.functionElim hd a)),
        by simp only [eval, m1]⟩
  | constant r c => exact ⟨1, .constant r c, by simp [eval]⟩
  | boolElim r hd t f =>
    simp only [itemNames, List.append_eq_nil] at hit
    obtain ⟨⟨hh, ht⟩, hf⟩ := hit
    obtain ⟨p0, w, h0⟩ := eval_total_of_item_free globals items hg j hd
      (fun m k e hm hl => hb m k e (by simp [globalNames, hm]) hl) hh
    obtain ⟨p1, v1, h1⟩ := eval_total_of_item_free globals items hg j t
      (fun m k e hm hl => hb m k e (by simp [globalNames, hm]) hl) ht
    obtain ⟨p2, v2, h2⟩ := eval_total_of_item_free globals items hg j f
      (fun m k e hm hl => hb m k e (by simp [globalNames, hm]) hl) hf
    have m0 := eval_mono globals items p0 (max p0 (max p1 p2)) hd w
      (Nat.le_max_left _ _) h0
    have m1 := eval_mono globals items p1 (max p0 (max p1 p2)) t v1
      (le_trans (Nat.le_max_left _ _) (Nat.le_max_right _ _)) h1
    have m2 := eval_mono globals items p2 (max p0 (max p1 p2)) f v2
      (le_trans (Nat.le_max_right _ _) (Nat.le_max_right _ _)) h2
    cases w with
    | neutral nh nes =>
      cases nh with
      | global hr nm =>
        cases nes with
        | nil =>
          by_cases hn1 : nm = "true"
          · exact ⟨max p0 (max p1 p2) + 1, v1, by
              simp only [eval, m0, hn1, reduceIte]; exact m1⟩
          · by_cases hn2 : nm = "false"
            · exact ⟨max p0 (max p1 p2) + 1, v2, by
                simp only [eval, m0, hn1, hn2, reduceIte]; exact m2⟩
            · exact ⟨max p0 (max p1 p2) + 1,
                .neutral (.global hr nm) [.bool r t f], by
                simp only [eval, m0]; simp [hn1, hn2]⟩
        | cons e nes2 =>
          exact ⟨max p0 (max p1 p2) + 1,
            .neutral (.global hr nm) ((e :: nes2) ++ [.bool r t f]),
            by simp only [eval, m0]⟩
      | item ir inm =>
        exact ⟨max p0 (max p1 p2) + 1,
          .neutral (.item ir inm) (nes ++ [.bool r t f]),
          by cases nes <;> simp only [eval, m0]⟩
      | error er =>
        exact ⟨max p0 (max p1 p2) + 1,
          .neutral (.error er) (nes ++ [.bool r t f]),
          by cases nes <;> simp only [eval, m0]⟩
    | univ _ _ =>
      exact ⟨max p0 (max p1 p2) + 1,
        .neutral (.error (Term.range hd)) [.bool r t f], by simp only [eval, m0]⟩
    | functionType _ _ =>
      exact ⟨max p0 (max p1 p2) + 1,
        .neutral (.error (Term.range hd)) [.bool r t f], by simp only [eval, m0]⟩
    | constant _ _ =>
      exact ⟨max p0 (max p1 p2) + 1,
        .neutral (.error (Term.range hd)) [.bool r t f], by simp only [eval, m0]⟩
    | error _ =>
      exact ⟨max p0 (max p1 p2) + 1,
        .neutral (.error (Term.range hd)) [.bool r t f], by simp only [eval, m0]⟩
  | intElim r hd bs d =>
    simp only [itemNames, List.append_eq_nil] at hit
    obtain ⟨⟨hh, hbs⟩, hd2⟩ := hit
    obtain ⟨p0, w, h0⟩ := eval_total_of_item_free globals items hg j hd
      (fun m k e hm hl => hb m k e (by simp [globalNames, hm]) hl) hh
    obtain ⟨p2, v2, h2⟩ := eval_total_of_item_free globals items hg j d
      (fun m k e hm hl => hb m k e (by simp [globalNames, hm]) hl) hd2
    have m0 := eval_mono globals items p0 (max p0 p2) hd w (Nat.le_max_left _ _) h0
    have m2 := eval_mono globals items p2 (max p0 p2) d v2 (Nat.le_max_right _ _) h2
    cases w with
    | constant cr c =>
      cases c with
      | int nv =>
        cases hlb : lookupBranch bs nv with
        | none =>
          exact ⟨max p0 p2 + 1, v2, by simp only [eval, m0, hlb]; exact m2⟩
        | some bt =>
          have hbtit : itemNames bt = [] := by
            rw [List.eq_nil_iff_forall_not_mem]
            intro m hm
            have := lookupBranch_itemNames bs nv bt hlb m hm
            rw [hbs] at this
            exact absurd this (List.not_mem_nil m)
          obtain ⟨pb, vb, hbp⟩ := eval_total_of_item_free globals items hg j bt
            (fun m k e hm hl => hb m k e
              (by simp [globalNames, lookupBranch_globalNames bs nv bt hlb m hm]) hl)
            hbtit
          have mb := eval_mono globals items pb (max p0 pb) bt vb
            (Nat.le_max_right _ _) hbp
          have m0b := eval_mono globals items p0 (max p0 pb) hd _
            (Nat.le_max_left _ _) h0
          exact ⟨max p0 pb + 1, vb, by simp only [eval, m0b, hlb]; exact mb⟩
      | f32 _ =>
        exact ⟨max p0 p2 + 1,
          .neutral (.error (Term.range hd)) [.int r bs d], by simp only [eval, m0]⟩
      | f64 _ =>
        exact ⟨max p0 p2 + 1,
          .neutral (.error (Term.range hd)) [.int r bs d], by simp only [eval, m0]⟩
    | neutral nh nes =>
      exact ⟨max p0 p2 + 1, .neutral nh (nes ++ [.int r bs d]),
        by simp only [eval, m0]⟩
    | univ _ _ =>
      exact ⟨max p0 p2 + 1,
        .neutral (.error (Term.range hd)) [.int r bs d], by simp only [eval, m0]⟩
    | functionType _ _ =>
      exact ⟨max p0 p2 + 1,
        .neutral (.error (Term.range hd)) [.int r bs d], by simp only [eval, m0]⟩
    | error _ =>
      exact ⟨max p0 p2 + 1,
        .neutral (.error (Term.range hd)) [.int r bs d], by simp only [eval, m0]⟩
  | error r => exact ⟨1, .error r, by simp [eval]⟩
termination_by (j, sizeOf t)
decreasing_by
  all_goals first
    | decreasing_tactic
    | (subst_vars
       apply Prod.Lex.right
       have hsz := lookupBranch_sizeOf _ _ _ hlb
       simp
       omega)



/-- Totality of `eval` under well-founded globals and items, for terms
whose item references are bounded. -/
theorem eval_total_of_wf (globals : Globals) (items : Items)
    (hg : GlobalsWF globals) (hi : ItemsWF items) (i : Nat) (t : Term)
    (hb : ∀ m k e, m ∈ itemNames t → lookupIdx items m = some (k, e) → k < i) :
    ∃ p v, eval p globals items t = some v := by
  cases t with
  | global r n =>
    cases hgl : lookupGlobal globals n with
    | none => exact ⟨1, .error r, by simp [eval, hgl]⟩
    | some e =>
      obtain ⟨ty, d⟩ := e
      cases d with
      | none => exact ⟨1, .neutral (.global r n) [], by simp [eval, hgl]⟩
      | some d =>
        have hidx := lookupGlobal_eq_idx globals n
        rw [hgl] at hidx
        cases hix : lookupIdx globals n with
        | none => rw [hix] at hidx; simp at hidx
        | some ke =>
          obtain ⟨k, e2⟩ := ke
          rw [hix] at hidx
          simp only [Option.map, Option.some.injEq] at hidx
          subst hidx
          obtain ⟨hdit, hdref⟩ := hg n k ty d hix
          obtain ⟨p, v, hp⟩ := eval_total_of_item_free globals items hg k d hdref hdit
          exact ⟨p + 1, v, by simp only [eval, hgl]; exact hp⟩
  | item r n =>
    cases hgl : lookupItem items n with
    | none => exact ⟨1, .error r, by simp [eval, hgl]⟩
    | some e =>
      have hidx := lookupItem_eq_idx items n
      rw [hgl] at hidx
      obtain b | fs := e
      · cases hix : lookupIdx items n with
        | none => rw [hix] at hidx; simp at hidx
        | some ke =>
          obtain ⟨k, e2⟩ := ke
          rw [hix] at hidx
          simp only [Option.map, Option.some.injEq] at hidx
          subst hidx
          have hk : k < i := hb n k (.alias b) (by simp [itemNames]) hix
          have href := hi n k b hix
          obtain ⟨p, v, hp⟩ := eval_total_of_wf globals items hg hi k b href
          exact ⟨p + 1, v, by simp only [eval, hgl]; exact hp⟩
      · exact ⟨1, .neutral (.item r n) [], by simp [eval, hgl]⟩
  | ann t ty =>
    obtain ⟨p, v, hp⟩ := eval_total_of_wf globals items hg hi i t
      (fun m k e hm hl => hb m k e (by simp [itemNames, hm]) hl)
    exact ⟨p + 1, v, by simp only [eval]; exact hp⟩
  | univ r u => exact ⟨1, .univ r u, by simp [eval]⟩
  | functionType pt bt =>
    obtain ⟨p1, v1, h1⟩ := eval_total_of_wf globals items hg hi i pt
      (fun m k e hm hl => hb m k e (by simp [itemNames, hm]) hl)
    obtain ⟨p2, v2, h2⟩ := eval_total_of_wf globals items hg hi i bt
      (fun m k e hm hl => hb m k e (by simp [itemNames, hm]) hl)
    have m1 := eval_mono globals items p1 (max p1 p2) pt v1 (Nat.le_max_left _ _) h1
    have m2 := eval_mono globals items p2 (max p1 p2) bt v2 (Nat.le_max_right _ _) h2
    exact ⟨max p1 p2 + 1, .functionType v1 v2, by simp only [eval, m1, m2]⟩
  | functionElim hd a =>
    obtain ⟨p1, w, h1⟩ := eval_total_of_wf globals items hg hi i hd
      (fun m k e hm hl => hb m k e (by simp [itemNames, hm]) hl)
    obtain ⟨p2, av, h2⟩ := eval_total_of_wf globals items hg hi i a
      (fun m k e hm hl => hb m k e (by simp [itemNames, hm]) hl)
    have m1 := eval_mono globals items p1 (max p1 p2) hd w (Nat.le_max_left _ _) h1
    have m2 := eval_mono globals items p2 (max p1 p2) a av (Nat.le_max_right _ _) h2
    cases w with
    | neutral nh nes =>
      exact ⟨max p1 p2 + 1,
        .neutral nh (nes ++ [.function (Term.range (.functionElim hd a)) av]),
        by simp only [eval, m1, m2]⟩
    | univ _ _ =>
      exact ⟨max p1 p2 + 1, .error (Term.range (.functionElim hd a)),
        by simp only [eval, m1]⟩
    | functionType _ _ =>
      exact ⟨max p1 p2 + 1, .error (Term.range (.functionElim hd a)),
        by simp only [eval, m1]⟩
    | constant _ _ =>
      exact ⟨max p1 p2 + 1, .error (Term.range (.functionElim hd a)),
        by simp only [eval, m1]⟩
    | error _ =>
      exact ⟨max p1 p2 + 1, .error (Term.range (.functionElim hd a)),
        by simp only [eval, m1]⟩
  | constant r c => exact ⟨1, .constant r c, by simp [eval]⟩
  | boolElim r hd t f =>
    obtain ⟨p0, w, h0⟩ := eval_total_of_wf globals items hg hi i hd
      (fun m k e hm hl => hb m k e (by simp [itemNames, hm]) hl)
    obtain ⟨p1, v1, h1⟩ := eval_total_of_wf globals items hg hi i t
      (fun m k e hm hl => hb m k e (by simp [itemNames, hm]) hl)
    obtain ⟨p2, v2, h2⟩ := eval_total_of_wf globals items hg hi i f
      (fun m k e hm hl => hb m k e (by simp [itemNames, hm]) hl)
    have m0 := eval_mono globals items p0 (max p0 (max p1 p2)) hd w
      (Nat.le_max_left _ _) h0
    have m1 := eval_mono globals items p1 (max p0 (max p1 p2)) t v1
      (le_trans (Nat.le_max_left _ _) (Nat.le_max_right _ _)) h1
    have m2 := eval_mono globals items p2 (max p0 (max p1 p2)) f v2
      (le_trans (Nat.le_max_right _ _) (Nat.le_max_right _ _)) h2
    cases w with
    | neutral nh nes =>
      cases nh with
      | global hr nm =>
        cases nes with
        | nil =>
          by_cases hn1 : nm = "true"
          · exact ⟨max p0 (max p1 p2) + 1, v1, by
              simp only [eval, m0, hn1, reduceIte]; exact m1⟩
          · by_cases hn2 : nm = "false"
            · exact ⟨max p0 (max p1 p2) + 1, v2, by
                simp only [eval, m0, hn1, hn2, reduceIte]; exact m2⟩
            · exact ⟨max p0 (max p1 p2) + 1,
                .neutral (.global hr nm) [.bool r t f], by
                simp only [eval, m0]; simp [hn1, hn2]⟩
        | cons e nes2 =>
          exact ⟨max p0 (max p1 p2) + 1,
            .neutral (.global hr nm) ((e :: nes2) ++ [.bool r t f]),
            by simp only [eval, m0]⟩
      | item ir inm =>
        exact ⟨max p0 (max p1 p2) + 1,
          .neutral (.item ir inm) (nes ++ [.bool r t f]),
          by cases nes <;> simp only [eval, m0]⟩
      | error er =>
        exact ⟨max p0 (max p1 p2) + 1,
          .neutral (.error er) (nes ++ [.bool r t f]),
          by cases nes <;> simp only [eval, m0]⟩
    | univ _ _ =>
      exact ⟨max p0 (max p1 p2) + 1,
        .neutral (.error (Term.range hd)) [.bool r t f], by simp only [eval, m0]⟩
    | functionType _ _ =>
      exact ⟨max p0 (max p1 p2) + 1,
        .neutral (.error (Term.range hd)) [.bool r t f], by simp only [eval, m0]⟩
    | constant _ _ =>
      exact ⟨max p0 (max p1 p2) + 1,
        .neutral (.error (Term.range hd)) [.bool r t f], by simp only [eval, m0]⟩
    | error _ =>
      exact ⟨max p0 (max p1 p2) + 1,
        .neutral (.error (Term.range hd)) [.bool r t f], by simp only [eval, m0]⟩
  | intElim r hd bs d =>
    obtain ⟨p0, w, h0⟩ := eval_total_of_wf globals items hg hi i hd
      (fun m k e hm hl => hb m k e (by simp [itemNames, hm]) hl)
    obtain ⟨p2, v2, h2⟩ := eval_total_of_wf globals items hg hi i d
      (fun m k e hm hl => hb m k e (by simp [itemNames, hm]) hl)
    have m0 := eval_mono globals items p0 (max p0 p2) hd w (Nat.le_max_left _ _) h0
    have m2 := eval_mono globals items p2 (max p0 p2) d v2 (Nat.le_max_right _ _) h2
    cases w with
    | constant cr c =>
      cases c with
      | int nv =>
        cases hlb : lookupBranch bs nv with
        | none =>
          exact ⟨max p0 p2 + 1, v2, by simp only [eval, m0, hlb]; exact m2⟩
        | some bt =>
          obtain ⟨pb, vb, hbp⟩ := eval_total_of_wf globals items hg hi i bt
            (fun m k e hm hl => hb m k e
              (by simp [itemNames, lookupBranch_itemNames bs nv bt hlb m hm]) hl)
          have mb := eval_mono globals items pb (max p0 pb) bt vb
            (Nat.le_max_right _ _) hbp
          have m0b := eval_mono globals items p0 (max p0 pb) hd _
            (Nat.le_max_left _ _) h0
          exact ⟨max p0 pb + 1, vb, by simp only [eval, m0b, hlb]; exact mb⟩
      | f32 _ =>
        exact ⟨max p0 p2 + 1,
          .neutral (.error (Term.range hd)) [.int r bs d], by simp only [eval, m0]⟩
      | f64 _ =>
        exact ⟨max p0 p2 + 1,
          .neutral (.error (Term.range hd)) [.int r bs d], by simp only [eval, m0]⟩
    | neutral nh nes =>
      exact ⟨max p0 p2 + 1, .neutral nh (nes ++ [.int r bs d]),
        by simp only [eval, m0]⟩
    | univ _ _ =>
      exact ⟨max p0 p2 + 1,
        .neutral (.error (Term.range hd)) [.int r bs d], by simp only [eval, m0]⟩
    | functionType _ _ =>
      exact ⟨max p0 p2 + 1,
        .neutral (.error (Term.range hd)) [.int r bs d], by simp only [eval, m0]⟩
    | error _ =>
      exact ⟨max p0 p2 + 1,
        .neutral (.error (Term.range hd)) [.int r bs d], by simp only [eval, m0]⟩
  | error r => exact ⟨1, .error r, by simp [eval]⟩
termination_by (i, sizeOf t)
decreasing_by
  all_goals first
    | decreasing_tactic
    | (subst_vars
       apply Prod.Lex.right
       have hsz := lookupBranch_sizeOf _ _ _ hlb
       simp
       omega)



/-- C1 counterexample: `eval` does not terminate on every input — on an
item map whose single alias refers to itself, no amount of fuel makes
`eval` return a value, so the Rust function recurses forever. -/
theorem eval_total_counterexample :
    ¬ ∃ v, Evals [] [("a", .alias (.item (0, 0) "a"))] (.item (0, 0) "a") v := by
  have key : ∀ p, eval p [] [("a", Item.alias (.item (0, 0) "a"))] (.item (0, 0) "a") = none := by
    intro p
    induction p with
    | zero => rfl
    | succ p ih => simpa [eval, lookupItem] using ih
  rintro ⟨v, p, hp⟩
  rw [key p] at hp
  cases hp

/-- C1 (amended): when global definitions refer only to strictly earlier
globals and mention no items, and item alias bodies refer only to strictly
earlier items (the no-forward-reference invariant of checked modules),
`eval` terminates with a value on every term; a reference to a name absent
from the globals or the items still yields `Error(range)` rather than a
failure. -/
theorem eval_total_spec (globals : Globals) (items : Items)
    (hg : GlobalsWF globals) (hi : ItemsWF items) :
    (∀ t, ∃ v, Evals globals items t v) ∧
    (∀ r n, lookupGlobal globals n = none →
      Evals globals items (.global r n) (.error r)) ∧
    (∀ r n, lookupItem items n = none →
      Evals globals items (.item r n) (.error r)) := by
  refine ⟨?_, ?_, ?_⟩
  · intro t
    obtain ⟨p, v, hp⟩ := eval_total_of_wf globals items hg hi items.length t
      (fun m k e hm hl => lookupIdx_lt_length items m k e hl)
    exact ⟨v, p, hp⟩
  · intro r n hn
    exact ⟨1, by simp [eval, hn]⟩
  · intro r n hn
    exact ⟨1, by simp [eval, hn]⟩

/-- C1 witness: the amended totality applies to a non-degenerate
well-founded environment with one abstract global and one alias item. -/
theorem eval_total_spec_witness :
    ∃ v, Evals [("true", (.univ (0, 0) (.type 0), none))]
      [("A", .alias (.global (5, 5) "true"))] (.item (7, 7) "A") v :=
  (eval_total_spec [("true", (.univ (0, 0) (.type 0), none))]
    [("A", .alias (.global (5, 5) "true"))]
    (by
      intro n k ty d h
      by_cases hn : "true" = n
      · simp [lookupIdx, hn] at h
      · simp [lookupIdx, hn] at h)
    (by
      intro n k b h
      by_cases hn : "A" = n
      · simp [lookupIdx, hn] at h
        obtain ⟨hk, hbb⟩ := h
        subst hbb
        intro m k2 e hm
        simp [itemNames] at hm
      · simp [lookupIdx, hn] at h)).1 (.item (7, 7) "A")

/-- Reading back a spine with one more eliminator wraps the read-back of
the shorter spine in that eliminator. -/
theorem read_back_spine_append (acc : Term) (es : List Elim) (e : Elim) :
    read_back_spine acc (es ++ [e]) = read_back_spine (read_back_spine acc es) [e] := by
  induction es generalizing acc with
  | nil => rfl
  | cons e2 rest ih =>
    cases e2 <;> simp only [read_back_spine, List.cons_append] <;> exact ih _

/-- Every value corresponds to itself. -/
theorem SimVal.rfl (v : Value) : SimVal v v :=
  ⟨Eq.refl _, fun _ es heq => ⟨es, heq, Iff.rfl⟩, fun _ es2 heq => ⟨es2, heq, Iff.rfl⟩⟩

/-- Two neutrals with the same head and one appended eliminator each
correspond once their read-backs agree. -/
theorem simVal_append (nh : Head) (nes nes2 : List Elim) (e e2 : Elim)
    (h : read_back_spine (head_term nh) (nes2 ++ [e2]) =
      read_back_spine (head_term nh) (nes ++ [e])) :
    SimVal (.neutral nh (nes ++ [e])) (.neutral nh (nes2 ++ [e2])) := by
  refine ⟨by simp only [read_back]; exact h, ?_, ?_⟩
  · intro h2 es heq
    rw [Value.neutral.injEq] at heq
    obtain ⟨hh, hes⟩ := heq
    subst hh
    subst hes
    exact ⟨nes2 ++ [e2], Eq.refl _, by simp⟩
  · intro h2 es2 heq
    rw [Value.neutral.injEq] at heq
    obtain ⟨hh, hes⟩ := heq
    subst hh
    subst hes
    exact ⟨nes ++ [e], Eq.refl _, by simp⟩



/-- Re-evaluating the read-back of any value `eval` produces terminates
and yields a value with the same read-back (and the same neutral
structure). -/
theorem eval_read_back (globals : Globals) (items : Items) :
    ∀ fuel t v, eval fuel globals items t = some v →
      ∃ p v2, eval p globals items (read_back v) = some v2 ∧ SimVal v v2 := by
  intro fuel
  induction fuel with
  | zero => intro t v h; simp [eval] at h
  | succ fuel ih =>
    intro t v hp
    cases t with
    | global r n =>
      simp only [eval] at hp
      cases hgl : lookupGlobal globals n with
      | none =>
        rw [hgl] at hp
        simp only [Option.some.injEq] at hp
        subst hp
        exact ⟨1, .error r, by simp [read_back, eval], SimVal.rfl _⟩
      | some e =>
        obtain ⟨ty, d⟩ := e
        cases d with
        | none =>
          rw [hgl] at hp
          simp only [Option.some.injEq] at hp
          subst hp
          exact ⟨1, .neutral (.global r n) [],
            by simp [read_back, read_back_spine, head_term, eval, hgl], SimVal.rfl _⟩
        | some d =>
          rw [hgl] at hp
          exact ih d v hp
    | item r n =>
      simp only [eval] at hp
      cases hgl : lookupItem items n with
      | none =>
        rw [hgl] at hp
        simp only [Option.some.injEq] at hp
        subst hp
        exact ⟨1, .error r, by simp [read_back, eval], SimVal.rfl _⟩
      | some e =>
        obtain b | fs := e
        · rw [hgl] at hp
          exact ih b v hp
        · rw [hgl] at hp
          simp only [Option.some.injEq] at hp
          subst hp
          exact ⟨1, .neutral (.item r n) [],
            by simp [read_back, read_back_spine, head_term, eval, hgl], SimVal.rfl _⟩
    | ann t ty =>
      simp only [eval] at hp
      exact ih t v hp
    | univ r u =>
      simp only [eval, Option.some.injEq] at hp
      subst hp
      exact ⟨1, .univ r u, by simp [read_back, eval], SimVal.rfl _⟩
    | constant r c =>
      simp only [eval, Option.some.injEq] at hp
      subst hp
      exact ⟨1, .constant r c, by simp [read_back, eval], SimVal.rfl _⟩
    | error r =>
      simp only [eval, Option.some.injEq] at hp
      subst hp
      exact ⟨1, .error r, by simp [read_back, eval], SimVal.rfl _⟩
    | functionType pt bt =>
      simp only [eval] at hp
      cases h1 : eval fuel globals items pt with
      | none => rw [h1] at hp; simp at hp
      | some v1 =>
        rw [h1] at hp
        cases h2 : eval fuel globals items bt with
        | none => rw [h2] at hp; simp at hp
        | some v2 =>
          rw [h2] at hp
          simp only [Option.some.injEq] at hp
          subst hp
          obtain ⟨q1, w1, hw1, s1⟩ := ih pt v1 h1
          obtain ⟨q2, w2, hw2, s2⟩ := ih bt v2 h2
          have m1 := eval_mono globals items q1 (max q1 q2) _ _ (Nat.le_max_left _ _) hw1
          have m2 := eval_mono globals items q2 (max q1 q2) _ _ (Nat.le_max_right _ _) hw2
          refine ⟨max q1 q2 + 1, .functionType w1 w2, ?_, ?_⟩
          · simp only [read_back, eval, m1, m2]
          · refine ⟨?_, ?_, ?_⟩
            · simp only [read_back, s1.rb, s2.rb]
            · intro h es heq; cases heq
            · intro h es heq; cases heq
    | functionElim hd arg =>
      simp only [eval] at hp
      cases h1 : eval fuel globals items hd with
      | none => rw [h1] at hp; simp at hp
      | some w =>
        rw [h1] at hp
        cases w with
        | neutral nh nes =>
          cases h2 : eval fuel globals items arg with
          | none => rw [h2] at hp; simp at hp
          | some av =>
            rw [h2] at hp
            simp only [Option.some.injEq] at hp
            subst hp
            obtain ⟨q1, w1, hw1, s1⟩ := ih hd (.neutral nh nes) h1
            obtain ⟨nes2, hw1eq, hiff⟩ := s1.fwd nh nes (Eq.refl _)
            subst hw1eq
            obtain ⟨q2, w2, hw2, s2⟩ := ih arg av h2
            have m1 := eval_mono globals items q1 (max q1 q2) _ _ (Nat.le_max_left _ _) hw1
            have m2 := eval_mono globals items q2 (max q1 q2) _ _ (Nat.le_max_right _ _) hw2
            have hrb1 : read_back (Value.neutral nh nes) = read_back_spine (head_term nh) nes := by
              simp [read_back]
            refine ⟨max q1 q2 + 1,
              .neutral nh (nes2 ++ [.function
                (Term.range (.functionElim (read_back_spine (head_term nh) nes)
                  (read_back av))) w2]), ?_, ?_⟩
            · rw [show read_back (Value.neutral nh (nes ++
                [Elim.function (Term.range (Term.functionElim hd arg)) av])) =
                Term.functionElim (read_back_spine (head_term nh) nes) (read_back av) by
                  simp only [read_back, read_back_spine_append, read_back_spine]]
              rw [hrb1] at m1
              simp only [eval, m1, m2]
            · apply simVal_append
              rw [read_back_spine_append, read_back_spine_append]
              simp only [read_back_spine]
              rw [s2.rb]
              have := s1.rb
              rw [hrb1] at this
              simp only [read_back] at this
              rw [this]
        | univ ur uu =>
          simp only [Option.some.injEq] at hp
          subst hp
          exact ⟨1, .error (Term.range (.functionElim hd arg)),
            by simp [read_back, eval], SimVal.rfl _⟩
        | functionType p1 b1 =>
          simp only [Option.some.injEq] at hp
          subst hp
          exact ⟨1, .error (Term.range (.functionElim hd arg)),
            by simp [read_back, eval], SimVal.rfl _⟩
        | constant cr cc =>
          simp only [Option.some.injEq] at hp
          subst hp
          exact ⟨1, .error (Term.range (.functionElim hd arg)),
            by simp [read_back, eval], SimVal.rfl _⟩
        | error er =>
          simp only [Option.some.injEq] at hp
          subst hp
          exact ⟨1, .error (Term.range (.functionElim hd arg)),
            by simp [read_back, eval], SimVal.rfl _⟩
    | boolElim r hd tt ff =>
      simp only [eval] at hp
      cases h1 : eval fuel globals items hd with
      | none => rw [h1] at hp; simp at hp
      | some w =>
        rw [h1] at hp
        cases w with
        | neutral nh nes =>
          cases nh with
          | global hr nm =>
            cases nes with
            | nil =>
              have hp2 : (if nm = "true" then eval fuel globals items tt
                  else if nm = "false" then eval fuel globals items ff
                  else some (Value.neutral (.global hr nm) [.bool r tt ff]))
                  = some v := hp
              by_cases hn1 : nm = "true"
              · rw [if_pos hn1] at hp2
                exact ih tt v hp2
              · by_cases hn2 : nm = "false"
                · rw [if_neg hn1, if_pos hn2] at hp2
                  exact ih ff v hp2
                · rw [if_neg hn1, if_neg hn2] at hp2
                  simp only [Option.some.injEq] at hp2
                  subst hp2
                  obtain ⟨q1, w1, hw1, s1⟩ := ih hd (.neutral (.global hr nm) []) h1
                  obtain ⟨nes2, hw1eq, hiff⟩ := s1.fwd (.global hr nm) [] (Eq.refl _)
                  subst hw1eq
                  have hnes2 : nes2 = [] := hiff.mp (Eq.refl _)
                  subst hnes2
                  have hrb1 : read_back (Value.neutral (.global hr nm) []) =
                      Term.global hr nm := by
                    simp [read_back, read_back_spine, head_term]
                  rw [hrb1] at hw1
                  refine ⟨q1 + 1, .neutral (.global hr nm) [.bool r tt ff], ?_, ?_⟩
                  · rw [show read_back (Value.neutral (.global hr nm) [.bool r tt ff]) =
                      Term.boolElim r (.global hr nm) tt ff by
                        simp [read_back, read_back_spine, head_term]]
                    simp only [eval, hw1]
                    rw [if_neg hn1, if_neg hn2]
                  · exact SimVal.rfl _
            | cons e0 nes0 =>
              simp only [Option.some.injEq] at hp
              subst hp
              obtain ⟨q1, w1, hw1, s1⟩ := ih hd (.neutral (.global hr nm) (e0 :: nes0)) h1
              obtain ⟨nes2, hw1eq, hiff⟩ := s1.fwd (.global hr nm) (e0 :: nes0) (Eq.refl _)
              subst hw1eq
              have hne2 : nes2 ≠ [] := fun h => by simp [h] at hiff
              have hrb1 : read_back (Value.neutral (.global hr nm) (e0 :: nes0)) =
                  read_back_spine (head_term (.global hr nm)) (e0 :: nes0) := by
                simp [read_back]
              rw [hrb1] at hw1
              refine ⟨q1 + 1, .neutral (.global hr nm) (nes2 ++ [.bool r tt ff]), ?_, ?_⟩
              · rw [show read_back (Value.neutral (.global hr nm)
                    ((e0 :: nes0) ++ [.bool r tt ff])) =
                  Term.boolElim r (read_back_spine (head_term (.global hr nm)) (e0 :: nes0)) tt ff by
                    simp only [read_back, read_back_spine_append, read_back_spine]]
                cases hne2x : nes2 with
                | nil => exact absurd hne2x hne2
                | cons a as =>
                  subst hne2x
                  simp only [eval, hw1]
              · apply simVal_append
                rw [read_back_spine_append, read_back_spine_append]
                simp only [read_back_spine]
                have := s1.rb
                rw [hrb1] at this
                simp only [read_back] at this
                rw [this]
          | item ir inm =>
            simp only [Option.some.injEq] at hp
            subst hp
            obtain ⟨q1, w1, hw1, s1⟩ := ih hd (.neutral (.item ir inm) nes) h1
            obtain ⟨nes2, hw1eq, hiff⟩ := s1.fwd (.item ir inm) nes (Eq.refl _)
            subst hw1eq
            have hrb1 : read_back (Value.neutral (.item ir inm) nes) =
                read_back_spine (head_term (.item ir inm)) nes := by
              simp [read_back]
            rw [hrb1] at hw1
            refine ⟨q1 + 1, .neutral (.item ir inm) (nes2 ++ [.bool r tt ff]), ?_, ?_⟩
            · rw [show read_back (Value.neutral (.item ir inm) (nes ++ [.bool r tt ff])) =
                Term.boolElim r (read_back_spine (head_term (.item ir inm)) nes) tt ff by
                  simp only [read_back, read_back_spine_append, read_back_spine]]
              cases nes2 with
              | nil => simp only [eval, hw1]
              | cons a as => simp only [eval, hw1]
            · apply simVal_append
              rw [read_back_spine_append, read_back_spine_append]
              simp only [read_back_spine]
              have := s1.rb
              rw [hrb1] at this
              simp only [read_back] at this
              rw [this]
          | error er =>
            simp only [Option.some.injEq] at hp
            subst hp
            obtain ⟨q1, w1, hw1, s1⟩ := ih hd (.neutral (.error er) nes) h1
            obtain ⟨nes2, hw1eq, hiff⟩ := s1.fwd (.error er) nes (Eq.refl _)
            subst hw1eq
            have hrb1 : read_back (Value.neutral (.error er) nes) =
                read_back_spine (head_term (.error er)) nes := by
              simp [read_back]
            rw [hrb1] at hw1
            refine ⟨q1 + 1, .neutral (.error er) (nes2 ++ [.bool r tt ff]), ?_, ?_⟩
            · rw [show read_back (Value.neutral (.error er) (nes ++ [.bool r tt ff])) =
                Term.boolElim r (read_back_spine (head_term (.error er)) nes) tt ff by
                  simp only [read_back, read_back_spine_append, read_back_spine]]
              cases nes2 with
              | nil => simp only [eval, hw1]
              | cons a as => simp only [eval, hw1]
            · apply simVal_append
              rw [read_back_spine_append, read_back_spine_append]
              simp only [read_back_spine]
              have := s1.rb
              rw [hrb1] at this
              simp only [read_back] at this
              rw [this]
        | univ ur uu =>
          simp only [Option.some.injEq] at hp
          subst hp
          refine ⟨2, .neutral (.error (Term.range hd)) [.bool r tt ff], ?_, SimVal.rfl _⟩
          rw [show read_back (Value.neutral (.error (Term.range hd)) [.bool r tt ff]) =
            Term.boolElim r (.error (Term.range hd)) tt ff by
              simp [read_back, read_back_spine, head_term]]
          simp [eval, Term.range]
        | functionType p1 b1 =>
          simp only [Option.some.injEq] at hp
          subst hp
          refine ⟨2, .neutral (.error (Term.range hd)) [.bool r tt ff], ?_, SimVal.rfl _⟩
          rw [show read_back (Value.neutral (.error (Term.range hd)) [.bool r tt ff]) =
            Term.boolElim r (.error (Term.range hd)) tt ff by
              simp [read_back, read_back_spine, head_term]]
          simp [eval, Term.range]
        | constant cr cc =>
          simp only [Option.some.injEq] at hp
          subst hp
          refine ⟨2, .neutral (.error (Term.range hd)) [.bool r tt ff], ?_, SimVal.rfl _⟩
          rw [show read_back (Value.neutral (.error (Term.range hd)) [.bool r tt ff]) =
            Term.boolElim r (.error (Term.range hd)) tt ff by
              simp [read_back, read_back_spine, head_term]]
          simp [eval, Term.range]
        | error er =>
          simp only [Option.some.injEq] at hp
          subst hp
          refine ⟨2, .neutral (.error (Term.range hd)) [.bool r tt ff], ?_, SimVal.rfl _⟩
          rw [show read_back (Value.neutral (.error (Term.range hd)) [.bool r tt ff]) =
            Term.boolElim r (.error (Term.range hd)) tt ff by
              simp [read_back, read_back_spine, head_term]]
          simp [eval, Term.range]
    | intElim r hd bs dd =>
      simp only [eval] at hp
      cases h1 : eval fuel globals items hd with
      | none => rw [h1] at hp; simp at hp
      | some w =>
        rw [h1] at hp
        cases w with
        | constant cr cc =>
          cases cc with
          | int nv =>
            have hp2 : (match lookupBranch bs nv with
                | some branchTerm => eval fuel globals items branchTerm
                | none => eval fuel globals items dd) = some v := hp
            cases hlb : lookupBranch bs nv with
            | some bt =>
              rw [hlb] at hp2
              exact ih bt v hp2
            | none =>
              rw [hlb] at hp2
              exact ih dd v hp2
          | f32 bb =>
            simp only [Option.some.injEq] at hp
            subst hp
            refine ⟨2, .neutral (.error (Term.range hd)) [.int r bs dd], ?_, SimVal.rfl _⟩
            rw [show read_back (Value.neutral (.error (Term.range hd)) [.int r bs dd]) =
              Term.intElim r (.error (Term.range hd)) bs dd by
                simp [read_back, read_back_spine, head_term]]
            simp [eval, Term.range]
          | f64 bb =>
            simp only [Option.some.injEq] at hp
            subst hp
            refine ⟨2, .neutral (.error (Term.range hd)) [.int r bs dd], ?_, SimVal.rfl _⟩
            rw [show read_back (Value.neutral (.error (Term.range hd)) [.int r bs dd]) =
              Term.intElim r (.error (Term.range hd)) bs dd by
                simp [read_back, read_back_spine, head_term]]
            simp [eval, Term.range]
        | neutral nh nes =>
          simp only [Option.some.injEq] at hp
          subst hp
          obtain ⟨q1, w1, hw1, s1⟩ := ih hd (.neutral nh nes) h1
          obtain ⟨nes2, hw1eq, hiff⟩ := s1.fwd nh nes (Eq.refl _)
          subst hw1eq
          have hrb1 : read_back (Value.neutral nh nes) =
              read_back_spine (head_term nh) nes := by
            simp [read_back]
          rw [hrb1] at hw1
          refine ⟨q1 + 1, .neutral nh (nes2 ++ [.int r bs dd]), ?_, ?_⟩
          · rw [show read_back (Value.neutral nh (nes ++ [.int r bs dd])) =
              Term.intElim r (read_back_spine (head_term nh) nes) bs dd by
                simp only [read_back, read_back_spine_append, read_back_spine]]
            simp only [eval, hw1]
          · apply simVal_append
            rw [read_back_spine_append, read_back_spine_append]
            simp only [read_back_spine]
            have := s1.rb
            rw [hrb1] at this
            simp only [read_back] at this
            rw [this]
        | univ ur uu =>
          simp only [Option.some.injEq] at hp
          subst hp
          refine ⟨2, .neutral (.error (Term.range hd)) [.int r bs dd], ?_, SimVal.rfl _⟩
          rw [show read_back (Value.neutral (.error (Term.range hd)) [.int r bs dd]) =
            Term.intElim r (.error (Term.range hd)) bs dd by
              simp [read_back, read_back_spine, head_term]]
          simp [eval, Term.range]
        | functionType p1 b1 =>
          simp only [Option.some.injEq] at hp
          subst hp
          refine ⟨2, .neutral (.error (Term.range hd)) [.int r bs dd], ?_, SimVal.rfl _⟩
          rw [show read_back (Value.neutral (.error (Term.range hd)) [.int r bs dd]) =
            Term.intElim r (.error (Term.range hd)) bs dd by
              simp [read_back, read_back_spine, head_term]]
          simp [eval, Term.range]
        | error er =>
          simp only [Option.some.injEq] at hp
          subst hp
          refine ⟨2, .neutral (.error (Term.range hd)) [.int r bs dd], ?_, SimVal.rfl _⟩
          rw [show read_back (Value.neutral (.error (Term.range hd)) [.int r bs dd]) =
            Term.intElim r (.error (Term.range hd)) bs dd by
              simp [read_back, read_back_spine, head_term]]
          simp [eval, Term.range]



/-- C7: normalization is idempotent — whenever `eval` returns `v` on a
term and returns `v2` on `read_back v`, the read-backs agree, so
`read_back (eval (read_back (eval t)))` equals `read_back (eval t)`. -/
theorem normalize_idempotent_spec (globals : Globals) (items : Items)
    (t : Term) (v v2 : Value)
    (h1 : Evals globals items t v) (h2 : Evals globals items (read_back v) v2) :
    read_back v2 = read_back v := by
  obtain ⟨p, hp⟩ := h1
  obtain ⟨q, w, hw, s⟩ := eval_read_back globals items p t v hp
  have hvw := evals_det h2 ⟨q, hw⟩
  subst hvw
  exact s.rb

/-- C7 witness: idempotence applies concretely to a boolean elimination
stuck on an abstract global. -/
theorem normalize_idempotent_spec_witness :
    Evals [("x", (.univ (0, 0) (.type 0), none))] []
      (.boolElim (4, 4) (.global (1, 1) "x")
        (.constant (2, 2) (.int 1)) (.constant (3, 3) (.int 2)))
      (.neutral (.global (1, 1) "x")
        [.bool (4, 4) (.constant (2, 2) (.int 1)) (.constant (3, 3) (.int 2))]) ∧
    read_back (Value.neutral (.global (1, 1) "x")
        [.bool (4, 4) (.constant (2, 2) (.int 1)) (.constant (3, 3) (.int 2))]) =
      read_back (Value.neutral (.global (1, 1) "x")
        [.bool (4, 4) (.constant (2, 2) (.int 1)) (.constant (3, 3) (.int 2))]) := by
  have hrb : read_back (Value.neutral (.global (1, 1) "x")
      [.bool (4, 4) (.constant (2, 2) (.int 1)) (.constant (3, 3) (.int 2))]) =
      Term.boolElim (4, 4) (.global (1, 1) "x")
        (.constant (2, 2) (.int 1)) (.constant (3, 3) (.int 2)) := by
    simp [read_back, read_back_spine, head_term]
  have h1 : Evals [("x", (.univ (0, 0) (.type 0), none))] []
      (.boolElim (4, 4) (.global (1, 1) "x")
        (.constant (2, 2) (.int 1)) (.constant (3, 3) (.int 2)))
      (.neutral (.global (1, 1) "x")
        [.bool (4, 4) (.constant (2, 2) (.int 1)) (.constant (3, 3) (.int 2))]) :=
    ⟨2, rfl⟩
  refine ⟨h1, ?_⟩
  exact normalize_idempotent_spec [("x", (.univ (0, 0) (.type 0), none))] [] _ _ _
    h1 (by rw [hrb]; exact ⟨2, rfl⟩)

/-- C9: the reader emitted for a struct item reads its fields in
declaration order against the abstract runtime, binding each field's host
value through a Result-returning read that short-circuits at the first
failing field (independently of the remaining fields), and constructs the
host struct — the association of field names to bound values, in
declaration order — only after every field read succeeds; for a struct
with zero fields the emitted declaration has zero fields and its reader
performs no reads and returns success. -/
theorem struct_reader_spec {σ ε α : Type} (readP : RustType → σ → Except ε (α × σ))
    (evalTerm : RustTerm → Bool) :
    (∀ st : StructType, st.fields = [] →
      emittedFields st = [] ∧
      structReader readP evalTerm st = some (fun s => .ok ([], s))) ∧
    (∀ st : StructType, st.fields ≠ [] →
      structReader readP evalTerm st = fieldsReader readP evalTerm st.fields) ∧
    (∀ (field : TypeField) rest rd restRd,
      tyRead readP evalTerm field.format_ty = some rd →
      fieldsReader readP evalTerm rest = some restRd →
      fieldsReader readP evalTerm (field :: rest) = some (fun s =>
        match rd s with
        | .error e => .error e
        | .ok (v, s2) =>
          match restRd s2 with
          | .error e => .error e
          | .ok (vs, s3) => .ok ((field.name, v) :: vs, s3))) ∧
    (∀ (field : TypeField) rest rd restRd s e2,
      tyRead readP evalTerm field.format_ty = some rd →
      fieldsReader readP evalTerm rest = some restRd →
      rd s = .error e2 →
      ∃ reader, fieldsReader readP evalTerm (field :: rest) = some reader ∧
        reader s = .error e2) ∧
    (∀ fields reader s vs s2,
      fieldsReader readP evalTerm fields = some reader →
      reader s = .ok (vs, s2) →
      vs.map Prod.fst = fields.map TypeField.name) := by
  have hcons : ∀ (field : TypeField) rest rd restRd,
      tyRead readP evalTerm field.format_ty = some rd →
      fieldsReader readP evalTerm rest = some restRd →
      fieldsReader readP evalTerm (field :: rest) = some (fun s =>
        match rd s with
        | .error e => .error e
        | .ok (v, s2) =>
          match restRd s2 with
          | .error e => .error e
          | .ok (vs, s3) => .ok ((field.name, v) :: vs, s3)) := by
    intro field rest rd restRd h1 h2
    simp only [fieldsReader, h1, h2]
  refine ⟨?_, ?_, hcons, ?_, ?_⟩
  · intro st h
    exact ⟨by simp [emittedFields, h], by simp [structReader, h]⟩
  · intro st h
    simp [structReader, List.isEmpty_iff, h]
  · intro field rest rd restRd s e2 h1 h2 h3
    refine ⟨_, hcons field rest rd restRd h1 h2, ?_⟩
    simp only [h3]
  · intro fields
    induction fields with
    | nil =>
      intro reader s vs s2 h1 h2
      simp only [fieldsReader, Option.some.injEq] at h1
      subst h1
      simp only [Except.ok.injEq, Prod.mk.injEq] at h2
      rw [← h2.1]
      simp
    | cons f rest ih =>
      intro reader s vs s2 h1 h2
      simp only [fieldsReader] at h1
      cases hrd : tyRead readP evalTerm f.format_ty with
      | none => rw [hrd] at h1; simp at h1
      | some rd =>
        rw [hrd] at h1
        cases hrest : fieldsReader readP evalTerm rest with
        | none => rw [hrest] at h1; simp at h1
        | some restRd =>
          rw [hrest] at h1
          simp only [Option.some.injEq] at h1
          subst h1
          simp only at h2
          cases hrds : rd s with
          | error e => rw [hrds] at h2; cases h2
          | ok vs2 =>
            obtain ⟨v, s3⟩ := vs2
            rw [hrds] at h2
            simp only at h2
            cases hrestRd : restRd s3 with
            | error e => rw [hrestRd] at h2; cases h2
            | ok vs3 =>
              obtain ⟨vs4, s4⟩ := vs3
              rw [hrestRd] at h2
              simp only [Except.ok.injEq, Prod.mk.injEq] at h2
              rw [← h2.1]
              simp only [List.map_cons, List.map]
              rw [ih restRd s3 vs4 s4 hrest hrestRd]

/-- C9 witness: the empty-struct clause applies to a concrete empty
struct, and the field-name clause applies to a concrete singleton struct
read with a counting runtime. -/
theorem struct_reader_spec_witness :
    emittedFields ⟨[], [], "Empty", []⟩ = [] ∧
    [(("inner", 0) : String × Nat)].map Prod.fst =
      [TypeField.mk [] "inner" RustType.u8 (RustType.rt RtType.u8)].map TypeField.name :=
  ⟨((struct_reader_spec
      (fun (_ : RustType) (n : Nat) => (Except.ok (n, n + 1) : Except Unit (Nat × Nat)))
      (fun _ => true)).1 ⟨[], [], "Empty", []⟩ rfl).1,
   (struct_reader_spec
      (fun (_ : RustType) (n : Nat) => (Except.ok (n, n + 1) : Except Unit (Nat × Nat)))
      (fun _ => true)).2.2.2.2
     [TypeField.mk [] "inner" RustType.u8 (RustType.rt RtType.u8)]
     _ 0 [("inner", 0)] 1 rfl rfl⟩

end Fathom
